import Mathlib

set_option maxHeartbeats 1000000

/-!
Shallow embedding of the A* pathfinding module (`pathfinding.js`).

A grid node carries its coordinates, a walkability flag and the per-search
scratch fields `g`, `h`, `f`, `parent`.  The JavaScript grid is an array
`nodes[y][x]` of node objects mutated in place; we model it as a function
from indices to node records, threaded through the search as explicit
state.  JavaScript object identity between grid nodes coincides with
coordinate equality (the grid owns exactly one node per position), so the
open and closed sets are modelled as lists of coordinates.
-/

/-- Cell record of the grid: position, walkability, and search scratch fields. -/
structure Node where
  x : Nat
  y : Nat
  walkable : Bool
  g : Nat
  h : Nat
  f : Nat
  parent : Option (Nat × Nat)
deriving Repr, DecidableEq

/-- Rectangular grid of nodes, indexed row-first (`nodes y x` is `nodes[y][x]`). -/
structure Grid where
  width : Nat
  height : Nat
  nodes : Nat → Nat → Node

/-- Fresh grid of the given dimensions, all cells walkable (the constructor
together with the grid-building loop). -/
def Grid.make (w h : Nat) : Grid :=
  ⟨w, h, fun y x => ⟨x, y, true, 0, 0, 0, none⟩⟩

/-- Node stored at a coordinate pair. -/
def nodeAt (gr : Grid) (c : Nat × Nat) : Node := gr.nodes c.2 c.1

def Grid.isInBounds (gr : Grid) (x y : Int) : Bool :=
  0 ≤ x && x < gr.width && 0 ≤ y && y < gr.height

def Grid.isWalkable (gr : Grid) (x y : Int) : Bool :=
  gr.isInBounds x y && (gr.nodes y.toNat x.toNat).walkable

def Grid.getNode (gr : Grid) (x y : Int) : Option Node :=
  if gr.isWalkable x y then some (gr.nodes y.toNat x.toNat) else none

def Grid.setWalkable (gr : Grid) (x y : Int) (w : Bool) : Grid :=
  if gr.isInBounds x y then
    { gr with nodes := fun ny nx =>
        if nx = x.toNat ∧ ny = y.toNat then { gr.nodes ny nx with walkable := w }
        else gr.nodes ny nx }
  else gr

/-- Direction offsets in source order: N, E, S, W, then NE, SE, SW, NW when
diagonal movement is enabled. -/
def directions (diagonal : Bool) : List (Int × Int) :=
  [(0, -1), (1, 0), (0, 1), (-1, 0)] ++
    (if diagonal then [(1, -1), (1, 1), (-1, 1), (-1, -1)] else [])

def Grid.getNeighbors (gr : Grid) (node : Node) (diagonal : Bool) : List Node :=
  (directions diagonal).foldl
    (fun acc d =>
      match gr.getNode ((node.x : Int) + d.1) ((node.y : Int) + d.2) with
      | some nb => acc ++ [nb]
      | none => acc) []

/-- Clears every in-range cell's search scratch fields. -/
def Grid.reset (gr : Grid) : Grid :=
  { gr with nodes := fun y x =>
      if x < gr.width ∧ y < gr.height then
        { gr.nodes y x with g := 0, h := 0, f := 0, parent := none }
      else gr.nodes y x }

/-- Manhattan distance between two nodes. -/
def heuristic (a b : Node) : Nat :=
  ((a.x : Int) - b.x).natAbs + ((a.y : Int) - b.y).natAbs

/-- Walks the `parent` chain, prepending coordinates; `fuel` bounds the walk
(the source loop runs until a parentless node). -/
def reconstructPath : Nat → Grid → Option (Nat × Nat) → List (Nat × Nat) → List (Nat × Nat)
  | _, _, none, acc => acc
  | 0, _, some _, acc => acc
  | fuel + 1, gr, some c, acc => reconstructPath fuel gr (nodeAt gr c).parent (c :: acc)

/-- Pointwise functional update of a single grid cell. -/
def updateNode (gr : Grid) (c : Nat × Nat) (fn : Node → Node) : Grid :=
  { gr with nodes := fun y x => if x = c.1 ∧ y = c.2 then fn (gr.nodes y x) else gr.nodes y x }

/-- Linear scan for the open-set entry with the lowest `f`; keeps the first
entry on ties (strict `<`).  `current`/`cIdx` are the best so far, `i` is the
index of the head of the remaining list. -/
def scanMin (gr : Grid) : List (Nat × Nat) → Nat × Nat → Nat → Nat → (Nat × Nat) × Nat
  | [], current, cIdx, _ => (current, cIdx)
  | c :: rest, current, cIdx, i =>
      if (nodeAt gr c).f < (nodeAt gr current).f then scanMin gr rest c i (i + 1)
      else scanMin gr rest current cIdx (i + 1)

/-- Field updates applied to a relaxed neighbor: new parent, tentative `g`,
recomputed `h` and `f` (`neighbor.parent = current; neighbor.g = tentativeG;
neighbor.h = heuristic(neighbor, endNode); neighbor.f = neighbor.g + neighbor.h`). -/
def relaxFn (endNode : Node) (current : Nat × Nat) (tg : Nat) : Node → Node :=
  fun n =>
    let hv := heuristic n endNode
    { n with parent := some current, g := tg, h := hv, f := tg + hv }

/-- Body of the neighbor loop of `findPath` for a single neighbor:
skip closed neighbors, push unseen ones onto the open set, and relax
`parent`, `g`, `h`, `f` unless the tentative cost is no improvement. -/
def relaxStep (endNode : Node) (closed : List (Nat × Nat)) (current : Nat × Nat)
    (st : Grid × List (Nat × Nat)) (nb : Node) : Grid × List (Nat × Nat) :=
  let gr := st.1
  let openS := st.2
  let nc : Nat × Nat := (nb.x, nb.y)
  if nc ∈ closed then st
  else
    let tentativeG := (nodeAt gr current).g + 1
    if nc ∈ openS then
      if tentativeG ≥ (nodeAt gr nc).g then st
      else (updateNode gr nc (relaxFn endNode current tentativeG), openS)
    else (updateNode gr nc (relaxFn endNode current tentativeG), openS ++ [nc])

/-- Outcome of one main-loop iteration: either the search returns a path, or
it continues with updated state. -/
inductive StepResult where
  | done : List (Nat × Nat) → Grid → StepResult
  | next : Grid → List (Nat × Nat) → List (Nat × Nat) → StepResult

/-- One iteration of the main search loop on a non-empty open set `o :: os`. -/
def astarStep (ec : Nat × Nat) (endNode : Node) (diagonal : Bool)
    (gr : Grid) (o : Nat × Nat) (os : List (Nat × Nat)) (closed : List (Nat × Nat)) :
    StepResult :=
  let sel := scanMin gr os o 0 1
  let current := sel.1
  if current = ec then
    StepResult.done (reconstructPath (gr.width * gr.height + 1) gr (some ec) []) gr
  else
    let open1 := (o :: os).eraseIdx sel.2
    let closed1 := closed ++ [current]
    let st2 := (gr.getNeighbors (nodeAt gr current) diagonal).foldl
      (relaxStep endNode closed1 current) (gr, open1)
    StepResult.next st2.1 st2.2 closed1

/-- Fueled main search loop; `none` in the first component means the fuel ran
out (the source loop runs until the open set empties or the goal is popped). -/
def astarLoop (ec : Nat × Nat) (endNode : Node) (diagonal : Bool) :
    Nat → Grid → List (Nat × Nat) → List (Nat × Nat) → Option (List (Nat × Nat)) × Grid
  | 0, gr, _, _ => (none, gr)
  | fuel + 1, gr, openS, closed =>
    match openS with
    | [] => (some [], gr)
    | o :: os =>
      match astarStep ec endNode diagonal gr o os closed with
      | StepResult.done p gr2 => (some p, gr2)
      | StepResult.next gr2 open2 closed2 => astarLoop ec endNode diagonal fuel gr2 open2 closed2

/-- Full `findPath` run: returns the path and the final grid state (the
source mutates the grid in place; the final grid makes that observable). -/
def findPathRun (gr0 : Grid) (startX startY endX endY : Int) (diagonal : Bool) :
    List (Nat × Nat) × Grid :=
  let gr := gr0.reset
  match gr.getNode startX startY, gr.getNode endX endY with
  | some startNode, some endNode =>
    let sc : Nat × Nat := (startNode.x, startNode.y)
    let ec : Nat × Nat := (endNode.x, endNode.y)
    let h0 := heuristic startNode endNode
    let gr1 := updateNode gr sc (fun n => { n with g := 0, h := h0, f := h0 })
    match astarLoop ec endNode diagonal (gr.width * gr.height + 1) gr1 [sc] [] with
    | (some p, gr2) => (p, gr2)
    | (none, gr2) => ([], gr2)
  | _, _ => ([], gr)

/-- Path returned by `findPath`. -/
def findPath (gr0 : Grid) (startX startY endX endY : Int) (diagonal : Bool) :
    List (Nat × Nat) :=
  (findPathRun gr0 startX startY endX endY diagonal).1

/-- Well-formed grid: every in-range node records its own indices as its
coordinates (true of every grid built through the module's constructors). -/
def Grid.WF (gr : Grid) : Prop :=
  ∀ y, y < gr.height → ∀ x, x < gr.width → (gr.nodes y x).x = x ∧ (gr.nodes y x).y = y

instance (gr : Grid) : Decidable gr.WF := by
  unfold Grid.WF; exact Nat.decidableBallLT _ _

/-- Manhattan distance on coordinate pairs. -/
def manh (a b : Nat × Nat) : Nat :=
  ((a.1 : Int) - b.1).natAbs + ((a.2 : Int) - b.2).natAbs

/-- Single permitted movement step between coordinates. -/
def stepOk (diagonal : Bool) (a b : Nat × Nat) : Bool :=
  (directions diagonal).any fun d =>
    ((a.1 : Int) + d.1 == (b.1 : Int)) && ((a.2 : Int) + d.2 == (b.2 : Int))

/-- Contiguous sequence of pairwise-adjacent, walkable, in-bounds coordinates. -/
def ValidPath (gr : Grid) (diagonal : Bool) (l : List (Nat × Nat)) : Prop :=
  List.Chain' (fun a b => stepOk diagonal a b = true) l ∧
    ∀ c ∈ l, gr.isWalkable c.1 c.2 = true

/-- Existence of a contiguous walkable route from `s` to `e`. -/
def Reachable (gr : Grid) (diagonal : Bool) (s e : Nat × Nat) : Prop :=
  ∃ l, l.head? = some s ∧ l.getLast? = some e ∧ ValidPath gr diagonal l

example : findPath (Grid.make 2 2) 0 0 1 1 false = [(0,0),(1,0),(1,1)] := by decide
example : findPath (Grid.make 2 2) 0 0 0 0 false = [(0,0)] := by decide
example : findPath (Grid.make 2 2) 0 0 2 0 false = [] := by decide

/-! ### Basic characterizations -/

theorem getNode_some_iff (gr : Grid) (x y : Int) (nb : Node) :
    gr.getNode x y = some nb ↔
      gr.isWalkable x y = true ∧ nb = gr.nodes y.toNat x.toNat := by
  unfold Grid.getNode
  by_cases h : gr.isWalkable x y = true
  · simp [h, eq_comm]
  · simp [h]

theorem isWalkable_bounds (gr : Grid) (x y : Int) (h : gr.isWalkable x y = true) :
    0 ≤ x ∧ x < (gr.width : Int) ∧ 0 ≤ y ∧ y < (gr.height : Int) ∧
      (gr.nodes y.toNat x.toNat).walkable = true := by
  unfold Grid.isWalkable Grid.isInBounds at h
  simp only [Bool.and_eq_true, decide_eq_true_eq] at h
  exact ⟨h.1.1.1.1, h.1.1.1.2, h.1.1.2, h.1.2, h.2⟩

theorem getNeighbors_foldl_filterMap (gr : Grid) (node : Node) (l : List (Int × Int))
    (acc : List Node) :
    l.foldl
      (fun acc d =>
        match gr.getNode ((node.x : Int) + d.1) ((node.y : Int) + d.2) with
        | some nb => acc ++ [nb]
        | none => acc) acc =
      acc ++ l.filterMap (fun d => gr.getNode ((node.x : Int) + d.1) ((node.y : Int) + d.2)) := by
  induction l generalizing acc with
  | nil => simp
  | cons d l ih =>
    cases hg : gr.getNode ((node.x : Int) + d.1) ((node.y : Int) + d.2) with
    | none => simp [List.foldl_cons, hg, ih, List.filterMap_cons]
    | some b => simp [List.foldl_cons, hg, ih, List.filterMap_cons, List.append_assoc]

theorem getNeighbors_eq_filterMap (gr : Grid) (node : Node) (diagonal : Bool) :
    gr.getNeighbors node diagonal =
      (directions diagonal).filterMap
        (fun d => gr.getNode ((node.x : Int) + d.1) ((node.y : Int) + d.2)) := by
  unfold Grid.getNeighbors
  exact (getNeighbors_foldl_filterMap gr node (directions diagonal) []).trans
    (List.nil_append _)

theorem mem_getNeighbors_iff (gr : Grid) (node : Node) (diagonal : Bool) (nb : Node) :
    nb ∈ gr.getNeighbors node diagonal ↔
      ∃ d ∈ directions diagonal,
        gr.getNode ((node.x : Int) + d.1) ((node.y : Int) + d.2) = some nb := by
  rw [getNeighbors_eq_filterMap]
  simp [List.mem_filterMap]

/-! ### Specification of the linear minimum scan -/

/-- f-value read by the open-set scan. -/
def fval (gr : Grid) (c : Nat × Nat) : Nat := (nodeAt gr c).f

theorem scanMin_invariant (gr : Grid) (full : List (Nat × Nat)) :
    ∀ (rest : List (Nat × Nat)) (current : Nat × Nat) (cIdx i : Nat),
      rest = full.drop i →
      full.get? cIdx = some current →
      cIdx < i →
      (∀ j, j < i → ∀ x, full.get? j = some x → fval gr current ≤ fval gr x) →
      (∀ j, j < cIdx → ∀ x, full.get? j = some x → fval gr current < fval gr x) →
      full.get? (scanMin gr rest current cIdx i).2 = some (scanMin gr rest current cIdx i).1 ∧
      (∀ j x, full.get? j = some x → fval gr (scanMin gr rest current cIdx i).1 ≤ fval gr x) ∧
      (∀ j, j < (scanMin gr rest current cIdx i).2 → ∀ x, full.get? j = some x →
        fval gr (scanMin gr rest current cIdx i).1 < fval gr x) := by
  intro rest
  induction rest with
  | nil =>
    intro current cIdx i hdrop hget hci hmin hstrict
    refine ⟨hget, ?_, hstrict⟩
    intro j x hj
    have hlen : full.length ≤ i := by
      by_contra hlt
      push_neg at hlt
      have := List.drop_eq_nil_iff_le.mp hdrop.symm
      omega
    have hjlt : j < full.length := List.get?_eq_some.mp hj |>.1
    exact hmin j (lt_of_lt_of_le hjlt hlen) x hj
  | cons c rest ih =>
    intro current cIdx i hdrop hget hci hmin hstrict
    have hc : full.get? i = some c := by
      have h0 : (full.drop i).get? 0 = some c := by rw [← hdrop]; rfl
      rwa [List.get?_drop, Nat.add_zero] at h0
    have hrest : rest = full.drop (i + 1) := by
      have : (full.drop i).drop 1 = full.drop (i + 1) := by
        rw [List.drop_drop, Nat.add_comm]
      rw [← this, ← hdrop]
      rfl
    unfold scanMin
    by_cases hlt : (nodeAt gr c).f < (nodeAt gr current).f
    · simp only [hlt, if_true]
      apply ih c i (i + 1) hrest hc (Nat.lt_succ_self i)
      · intro j hj x hx
        rcases Nat.lt_succ_iff_lt_or_eq.mp hj with hj' | hj'
        · exact le_of_lt (lt_of_lt_of_le hlt (hmin j hj' x hx))
        · subst hj'
          rw [hc] at hx
          cases hx
          exact le_refl _
      · intro j hj x hx
        exact lt_of_lt_of_le hlt (hmin j hj x hx)
    · simp only [hlt, if_false]
      apply ih current cIdx (i + 1) hrest hget (Nat.lt_succ_of_lt hci)
      · intro j hj x hx
        rcases Nat.lt_succ_iff_lt_or_eq.mp hj with hj' | hj'
        · exact hmin j hj' x hx
        · subst hj'
          rw [hc] at hx
          cases hx
          exact Nat.le_of_not_lt hlt
      · exact hstrict

/-! ### Frame: the search only touches scratch fields -/

/-- Relation between grids: same dimensions, and every cell keeps its
coordinates and walkability (only `g`, `h`, `f`, `parent` may differ). -/
def ScratchOnly (a b : Grid) : Prop :=
  b.width = a.width ∧ b.height = a.height ∧
    ∀ y x, (b.nodes y x).x = (a.nodes y x).x ∧ (b.nodes y x).y = (a.nodes y x).y ∧
      (b.nodes y x).walkable = (a.nodes y x).walkable

theorem scratchOnly_refl (a : Grid) : ScratchOnly a a :=
  ⟨rfl, rfl, fun _ _ => ⟨rfl, rfl, rfl⟩⟩

theorem scratchOnly_trans {a b c : Grid} (h1 : ScratchOnly a b) (h2 : ScratchOnly b c) :
    ScratchOnly a c := by
  obtain ⟨w1, h1', n1⟩ := h1
  obtain ⟨w2, h2', n2⟩ := h2
  refine ⟨w2.trans w1, h2'.trans h1', fun y x => ?_⟩
  obtain ⟨a1, b1, c1⟩ := n1 y x
  obtain ⟨a2, b2, c2⟩ := n2 y x
  exact ⟨a2.trans a1, b2.trans b1, c2.trans c1⟩

theorem scratchOnly_reset (gr : Grid) : ScratchOnly gr gr.reset := by
  refine ⟨rfl, rfl, fun y x => ?_⟩
  unfold Grid.reset
  by_cases h : x < gr.width ∧ y < gr.height <;> simp [h]

theorem scratchOnly_updateNode (gr : Grid) (c : Nat × Nat) (fn : Node → Node)
    (hf : ∀ n, (fn n).x = n.x ∧ (fn n).y = n.y ∧ (fn n).walkable = n.walkable) :
    ScratchOnly gr (updateNode gr c fn) := by
  refine ⟨rfl, rfl, fun y x => ?_⟩
  unfold updateNode
  by_cases h : x = c.1 ∧ y = c.2 <;> simp [h, hf]

theorem scratchOnly_relaxStep (endNode : Node) (closed : List (Nat × Nat))
    (current : Nat × Nat) (st : Grid × List (Nat × Nat)) (nb : Node) :
    ScratchOnly st.1 (relaxStep endNode closed current st nb).1 := by
  unfold relaxStep
  by_cases h1 : (nb.x, nb.y) ∈ closed
  · simp only [h1, if_true]
    exact scratchOnly_refl _
  · simp only [h1, if_false]
    by_cases h2 : (nb.x, nb.y) ∈ st.2
    · simp only [h2, if_true]
      by_cases h3 : (nodeAt st.1 current).g + 1 ≥ (nodeAt st.1 (nb.x, nb.y)).g
      · simp only [h3, if_true]
        exact scratchOnly_refl _
      · simp only [h3, if_false]
        exact scratchOnly_updateNode _ _ _ (fun n => ⟨rfl, rfl, rfl⟩)
    · simp only [h2, if_false]
      exact scratchOnly_updateNode _ _ _ (fun n => ⟨rfl, rfl, rfl⟩)

theorem scratchOnly_relaxFold (endNode : Node) (closed : List (Nat × Nat))
    (current : Nat × Nat) (nbs : List Node) :
    ∀ st : Grid × List (Nat × Nat),
      ScratchOnly st.1 ((nbs.foldl (relaxStep endNode closed current) st).1) := by
  induction nbs with
  | nil => intro st; exact scratchOnly_refl _
  | cons nb nbs ih =>
    intro st
    rw [List.foldl_cons]
    exact scratchOnly_trans (scratchOnly_relaxStep endNode closed current st nb) (ih _)

theorem astarStep_done_grid {ec : Nat × Nat} {endNode : Node} {diagonal : Bool}
    {gr : Grid} {o : Nat × Nat} {os closed : List (Nat × Nat)}
    {p : List (Nat × Nat)} {gr2 : Grid}
    (h : astarStep ec endNode diagonal gr o os closed = StepResult.done p gr2) :
    gr2 = gr := by
  unfold astarStep at h
  by_cases hc : (scanMin gr os o 0 1).1 = ec
  · simp only [hc, if_true] at h
    cases h
    rfl
  · simp only [hc, if_false] at h
    cases h

theorem astarStep_next_scratch {ec : Nat × Nat} {endNode : Node} {diagonal : Bool}
    {gr : Grid} {o : Nat × Nat} {os closed : List (Nat × Nat)}
    {gr2 : Grid} {open2 closed2 : List (Nat × Nat)}
    (h : astarStep ec endNode diagonal gr o os closed = StepResult.next gr2 open2 closed2) :
    ScratchOnly gr gr2 := by
  unfold astarStep at h
  by_cases hc : (scanMin gr os o 0 1).1 = ec
  · simp only [hc, if_true] at h
    cases h
  · simp only [hc, if_false] at h
    cases h
    exact scratchOnly_relaxFold _ _ _ _ _

theorem astarLoop_scratch (ec : Nat × Nat) (endNode : Node) (diagonal : Bool) :
    ∀ (fuel : Nat) (gr : Grid) (openS closed : List (Nat × Nat)),
      ScratchOnly gr (astarLoop ec endNode diagonal fuel gr openS closed).2 := by
  intro fuel
  induction fuel with
  | zero => intro gr openS closed; exact scratchOnly_refl _
  | succ fuel ih =>
    intro gr openS closed
    match openS with
    | [] => exact scratchOnly_refl _
    | o :: os =>
      unfold astarLoop
      cases hstep : astarStep ec endNode diagonal gr o os closed with
      | done p gr2 =>
        simp only [hstep]
        rw [astarStep_done_grid hstep]
        exact scratchOnly_refl _
      | next gr2 open2 closed2 =>
        simp only [hstep]
        exact scratchOnly_trans (astarStep_next_scratch hstep) (ih gr2 open2 closed2)

theorem findPathRun_scratch (gr0 : Grid) (sx sy ex ey : Int) (diagonal : Bool) :
    ScratchOnly gr0 (findPathRun gr0 sx sy ex ey diagonal).2 := by
  unfold findPathRun
  cases hs : (gr0.reset).getNode sx sy with
  | none =>
    cases he : (gr0.reset).getNode ex ey <;>
      simpa [hs, he] using scratchOnly_reset gr0
  | some startNode =>
    cases he : (gr0.reset).getNode ex ey with
    | none => simpa [hs, he] using scratchOnly_reset gr0
    | some endNode =>
      simp only [hs, he]
      have hbase : ScratchOnly gr0
          (updateNode gr0.reset (startNode.x, startNode.y)
            (fun n => { n with g := 0, h := heuristic startNode endNode,
                               f := heuristic startNode endNode })) :=
        scratchOnly_trans (scratchOnly_reset gr0)
          (scratchOnly_updateNode _ _ _ (fun n => ⟨rfl, rfl, rfl⟩))
      have hloop := astarLoop_scratch (endNode.x, endNode.y) endNode diagonal
        (gr0.reset.width * gr0.reset.height + 1)
        (updateNode gr0.reset (startNode.x, startNode.y)
          (fun n => { n with g := 0, h := heuristic startNode endNode,
                             f := heuristic startNode endNode }))
        [(startNode.x, startNode.y)] []
      cases hres : astarLoop (endNode.x, endNode.y) endNode diagonal
          (gr0.reset.width * gr0.reset.height + 1)
          (updateNode gr0.reset (startNode.x, startNode.y)
            (fun n => { n with g := 0, h := heuristic startNode endNode,
                               f := heuristic startNode endNode }))
          [(startNode.x, startNode.y)] [] with
      | mk r gr2 =>
        rw [hres] at hloop
        cases r <;> simpa [hres] using scratchOnly_trans hbase hloop

theorem scanMin_spec (gr : Grid) (o : Nat × Nat) (os : List (Nat × Nat)) :
    (o :: os).get? (scanMin gr os o 0 1).2 = some (scanMin gr os o 0 1).1 ∧
    (∀ j x, (o :: os).get? j = some x →
      fval gr (scanMin gr os o 0 1).1 ≤ fval gr x) ∧
    (∀ j, j < (scanMin gr os o 0 1).2 → ∀ x, (o :: os).get? j = some x →
      fval gr (scanMin gr os o 0 1).1 < fval gr x) := by
  apply scanMin_invariant gr (o :: os) os o 0 1 rfl rfl Nat.zero_lt_one
  · intro j hj x hx
    interval_cases j
    cases hx
    exact le_refl _
  · intro j hj x hx
    omega

/-! ### Claim theorems: neighbor enumeration, open-set selection, frame -/

/-- C7: `getNeighbors` returns exactly the in-bounds walkable neighbors, in
the fixed direction order N, E, S, W (then NE, SE, SW, NW when diagonal
movement is enabled), filtering through the bounds-and-walkability lookup. -/
theorem claim7_neighbors (gr : Grid) (node : Node) (diagonal : Bool) (hwf : gr.WF) :
    gr.getNeighbors node diagonal =
      (directions diagonal).filterMap
        (fun d => gr.getNode ((node.x : Int) + d.1) ((node.y : Int) + d.2)) ∧
    directions false = [(0, -1), (1, 0), (0, 1), (-1, 0)] ∧
    directions true =
      [(0, -1), (1, 0), (0, 1), (-1, 0), (1, -1), (1, 1), (-1, 1), (-1, -1)] ∧
    ∀ nb ∈ gr.getNeighbors node diagonal,
      gr.isWalkable (nb.x : Int) (nb.y : Int) = true := by
  refine ⟨getNeighbors_eq_filterMap gr node diagonal, by decide, by decide, ?_⟩
  intro nb hnb
  obtain ⟨d, _, hd⟩ := (mem_getNeighbors_iff gr node diagonal nb).mp hnb
  obtain ⟨hw, hnb'⟩ := (getNode_some_iff _ _ _ _).mp hd
  obtain ⟨hx0, hxw, hy0, hyh, _⟩ := isWalkable_bounds _ _ _ hw
  have hxlt : ((node.x : Int) + d.1).toNat < gr.width := by omega
  have hylt : ((node.y : Int) + d.2).toNat < gr.height := by omega
  obtain ⟨hfx, hfy⟩ := hwf _ hylt _ hxlt
  subst hnb'
  rw [hfx, hfy]
  rw [Int.toNat_of_nonneg hx0, Int.toNat_of_nonneg hy0]
  exact hw

/-- C8: the open-set scan selects an entry whose `f`-value is minimal over
the whole open set, and on ties the entry at the lowest index (every entry
strictly before the selected index has a strictly larger `f`); when the
selected cell is not the goal, the loop step moves exactly that cell to the
closed set. -/
theorem claim8_pop_min (gr : Grid) (o : Nat × Nat) (os closed : List (Nat × Nat))
    (ec : Nat × Nat) (endNode : Node) (diagonal : Bool) :
    (o :: os).get? (scanMin gr os o 0 1).2 = some (scanMin gr os o 0 1).1 ∧
    (∀ j x, (o :: os).get? j = some x →
      fval gr (scanMin gr os o 0 1).1 ≤ fval gr x) ∧
    (∀ j, j < (scanMin gr os o 0 1).2 → ∀ x, (o :: os).get? j = some x →
      fval gr (scanMin gr os o 0 1).1 < fval gr x) ∧
    ((scanMin gr os o 0 1).1 ≠ ec →
      ∃ gr2 open2, astarStep ec endNode diagonal gr o os closed =
        StepResult.next gr2 open2 (closed ++ [(scanMin gr os o 0 1).1])) := by
  obtain ⟨h1, h2, h3⟩ := scanMin_spec gr o os
  refine ⟨h1, h2, h3, ?_⟩
  intro hne
  unfold astarStep
  simp only [hne, if_false]
  exact ⟨_, _, rfl⟩

/-- C10: `findPath` never changes the grid's dimensions, any cell's
coordinates, or any cell's walkability; only the scratch fields `g`, `h`,
`f`, `parent` are mutated. -/
theorem claim10_frame (gr0 : Grid) (sx sy ex ey : Int) (diagonal : Bool) :
    (findPathRun gr0 sx sy ex ey diagonal).2.width = gr0.width ∧
    (findPathRun gr0 sx sy ex ey diagonal).2.height = gr0.height ∧
    ∀ y x,
      ((findPathRun gr0 sx sy ex ey diagonal).2.nodes y x).x = (gr0.nodes y x).x ∧
      ((findPathRun gr0 sx sy ex ey diagonal).2.nodes y x).y = (gr0.nodes y x).y ∧
      ((findPathRun gr0 sx sy ex ey diagonal).2.nodes y x).walkable =
        (gr0.nodes y x).walkable :=
  findPathRun_scratch gr0 sx sy ex ey diagonal

/-! ### Idempotence: a second identical query sees the same reset grid -/

theorem node_fields_eq {a b : Node} (hx : a.x = b.x) (hy : a.y = b.y)
    (hw : a.walkable = b.walkable) (hg : a.g = b.g) (hh : a.h = b.h)
    (hf : a.f = b.f) (hp : a.parent = b.parent) : a = b := by
  cases a; cases b; simp_all

theorem grid_fields_eq {a b : Grid} (hw : a.width = b.width) (hh : a.height = b.height)
    (hn : a.nodes = b.nodes) : a = b := by
  cases a; cases b; simp_all

theorem wf_of_scratchOnly {a b : Grid} (hs : ScratchOnly a b) (hwf : a.WF) : b.WF := by
  obtain ⟨hw, hh, hn⟩ := hs
  intro y hy x hx
  obtain ⟨ex, ey, _⟩ := hn y x
  rw [ex, ey]
  exact hwf y (hh ▸ hy) x (hw ▸ hx)

/-- Frame relation for a single search: scratch-only changes, and cells
outside the grid bounds are untouched. -/
def FrameStep (a b : Grid) : Prop :=
  ScratchOnly a b ∧ ∀ y x, ¬(x < a.width ∧ y < a.height) → b.nodes y x = a.nodes y x

theorem frameStep_refl (a : Grid) : FrameStep a a :=
  ⟨scratchOnly_refl a, fun _ _ _ => rfl⟩

theorem frameStep_trans {a b c : Grid} (h1 : FrameStep a b) (h2 : FrameStep b c) :
    FrameStep a c := by
  refine ⟨scratchOnly_trans h1.1 h2.1, fun y x hout => ?_⟩
  have hdim : b.width = a.width ∧ b.height = a.height := ⟨h1.1.1, h1.1.2.1⟩
  have hout' : ¬(x < b.width ∧ y < b.height) := by rw [hdim.1, hdim.2]; exact hout
  exact (h2.2 y x hout').trans (h1.2 y x hout)

theorem frameStep_reset (gr : Grid) : FrameStep gr gr.reset := by
  refine ⟨scratchOnly_reset gr, fun y x hout => ?_⟩
  unfold Grid.reset
  simp [hout]

theorem frameStep_updateNode (gr : Grid) (c : Nat × Nat) (fn : Node → Node)
    (hf : ∀ n, (fn n).x = n.x ∧ (fn n).y = n.y ∧ (fn n).walkable = n.walkable)
    (hin : c.1 < gr.width ∧ c.2 < gr.height) :
    FrameStep gr (updateNode gr c fn) := by
  refine ⟨scratchOnly_updateNode gr c fn hf, fun y x hout => ?_⟩
  unfold updateNode
  have : ¬(x = c.1 ∧ y = c.2) := by
    rintro ⟨rfl, rfl⟩
    exact hout hin
  simp [this]

theorem frameStep_relaxStep (endNode : Node) (closed : List (Nat × Nat))
    (current : Nat × Nat) (st : Grid × List (Nat × Nat)) (nb : Node)
    (hin : nb.x < st.1.width ∧ nb.y < st.1.height) :
    FrameStep st.1 (relaxStep endNode closed current st nb).1 := by
  unfold relaxStep
  by_cases h1 : (nb.x, nb.y) ∈ closed
  · simp only [h1, if_true]
    exact frameStep_refl _
  · simp only [h1, if_false]
    by_cases h2 : (nb.x, nb.y) ∈ st.2
    · simp only [h2, if_true]
      by_cases h3 : (nodeAt st.1 current).g + 1 ≥ (nodeAt st.1 (nb.x, nb.y)).g
      · simp only [h3, if_true]
        exact frameStep_refl _
      · simp only [h3, if_false]
        exact frameStep_updateNode _ _ _ (fun n => ⟨rfl, rfl, rfl⟩) hin
    · simp only [h2, if_false]
      exact frameStep_updateNode _ _ _ (fun n => ⟨rfl, rfl, rfl⟩) hin

theorem frameStep_relaxFold (endNode : Node) (closed : List (Nat × Nat))
    (current : Nat × Nat) (nbs : List Node) :
    ∀ st : Grid × List (Nat × Nat),
      (∀ nb ∈ nbs, nb.x < st.1.width ∧ nb.y < st.1.height) →
      FrameStep st.1 ((nbs.foldl (relaxStep endNode closed current) st).1) := by
  induction nbs with
  | nil => intro st _; exact frameStep_refl _
  | cons nb nbs ih =>
    intro st hin
    rw [List.foldl_cons]
    have h1 : FrameStep st.1 (relaxStep endNode closed current st nb).1 :=
      frameStep_relaxStep endNode closed current st nb (hin nb (List.mem_cons_self _ _))
    have hdim : (relaxStep endNode closed current st nb).1.width = st.1.width ∧
        (relaxStep endNode closed current st nb).1.height = st.1.height :=
      ⟨h1.1.1, h1.1.2.1⟩
    refine frameStep_trans h1 (ih _ ?_)
    intro nb' hnb'
    rw [hdim.1, hdim.2]
    exact hin nb' (List.mem_cons_of_mem _ hnb')

theorem mem_getNeighbors_bounds {gr : Grid} (hwf : gr.WF) (node : Node) (diagonal : Bool)
    {nb : Node} (hnb : nb ∈ gr.getNeighbors node diagonal) :
    nb.x < gr.width ∧ nb.y < gr.height ∧ (gr.nodes nb.y nb.x).walkable = true ∧
      gr.nodes nb.y nb.x = nb := by
  obtain ⟨d, _, hd⟩ := (mem_getNeighbors_iff gr node diagonal nb).mp hnb
  obtain ⟨hw, hnb'⟩ := (getNode_some_iff _ _ _ _).mp hd
  obtain ⟨hx0, hxw, hy0, hyh, hwk⟩ := isWalkable_bounds _ _ _ hw
  have hxlt : ((node.x : Int) + d.1).toNat < gr.width := by omega
  have hylt : ((node.y : Int) + d.2).toNat < gr.height := by omega
  obtain ⟨hfx, hfy⟩ := hwf _ hylt _ hxlt
  subst hnb'
  rw [hfx, hfy]
  exact ⟨hxlt, hylt, hwk, rfl⟩

theorem frameStep_astarStep_next {ec : Nat × Nat} {endNode : Node} {diagonal : Bool}
    {gr : Grid} {o : Nat × Nat} {os closed : List (Nat × Nat)}
    {gr2 : Grid} {open2 closed2 : List (Nat × Nat)} (hwf : gr.WF)
    (h : astarStep ec endNode diagonal gr o os closed = StepResult.next gr2 open2 closed2) :
    FrameStep gr gr2 := by
  unfold astarStep at h
  by_cases hc : (scanMin gr os o 0 1).1 = ec
  · simp only [hc, if_true] at h
    cases h
  · simp only [hc, if_false] at h
    cases h
    apply frameStep_relaxFold
    intro nb hnb
    obtain ⟨h1, h2, _⟩ := mem_getNeighbors_bounds hwf _ _ hnb
    exact ⟨h1, h2⟩

theorem frameStep_astarLoop (ec : Nat × Nat) (endNode : Node) (diagonal : Bool) :
    ∀ (fuel : Nat) (gr : Grid), gr.WF → ∀ (openS closed : List (Nat × Nat)),
      FrameStep gr (astarLoop ec endNode diagonal fuel gr openS closed).2 := by
  intro fuel
  induction fuel with
  | zero => intro gr _ openS closed; exact frameStep_refl _
  | succ fuel ih =>
    intro gr hwf openS closed
    match openS with
    | [] => exact frameStep_refl _
    | o :: os =>
      unfold astarLoop
      cases hstep : astarStep ec endNode diagonal gr o os closed with
      | done p gr2 =>
        simp only [hstep]
        rw [astarStep_done_grid hstep]
        exact frameStep_refl _
      | next gr2 open2 closed2 =>
        simp only [hstep]
        have h1 := frameStep_astarStep_next hwf hstep
        exact frameStep_trans h1 (ih gr2 (wf_of_scratchOnly h1.1 hwf) open2 closed2)

theorem frameStep_findPathRun (gr0 : Grid) (sx sy ex ey : Int) (diagonal : Bool)
    (hwf : gr0.WF) : FrameStep gr0 (findPathRun gr0 sx sy ex ey diagonal).2 := by
  unfold findPathRun
  have hwfr : (gr0.reset).WF := wf_of_scratchOnly (scratchOnly_reset gr0) hwf
  cases hs : (gr0.reset).getNode sx sy with
  | none =>
    cases he : (gr0.reset).getNode ex ey <;>
      simpa [hs, he] using frameStep_reset gr0
  | some startNode =>
    cases he : (gr0.reset).getNode ex ey with
    | none => simpa [hs, he] using frameStep_reset gr0
    | some endNode =>
      simp only [hs, he]
      obtain ⟨hw, hsn⟩ := (getNode_some_iff _ _ _ _).mp hs
      obtain ⟨hx0, hxw, hy0, hyh, _⟩ := isWalkable_bounds _ _ _ hw
      have hsx : startNode.x = sx.toNat ∧ startNode.y = sy.toNat := by
        have := hwfr sy.toNat (by omega) sx.toNat (by omega)
        rw [hsn]
        exact ⟨this.1, this.2⟩
      have hscin : startNode.x < (gr0.reset).width ∧ startNode.y < (gr0.reset).height := by
        rw [hsx.1, hsx.2]
        constructor <;> omega
      have hupd : FrameStep gr0.reset
          (updateNode gr0.reset (startNode.x, startNode.y)
            (fun n => { n with g := 0, h := heuristic startNode endNode,
                               f := heuristic startNode endNode })) :=
        frameStep_updateNode _ _ _ (fun n => ⟨rfl, rfl, rfl⟩) hscin
      have hbase : FrameStep gr0
          (updateNode gr0.reset (startNode.x, startNode.y)
            (fun n => { n with g := 0, h := heuristic startNode endNode,
                               f := heuristic startNode endNode })) :=
        frameStep_trans (frameStep_reset gr0) hupd
      have hloop := frameStep_astarLoop (endNode.x, endNode.y) endNode diagonal
        (gr0.reset.width * gr0.reset.height + 1) _
        (wf_of_scratchOnly hbase.1 hwf) [(startNode.x, startNode.y)] []
      cases hres : astarLoop (endNode.x, endNode.y) endNode diagonal
          (gr0.reset.width * gr0.reset.height + 1)
          (updateNode gr0.reset (startNode.x, startNode.y)
            (fun n => { n with g := 0, h := heuristic startNode endNode,
                               f := heuristic startNode endNode }))
          [(startNode.x, startNode.y)] [] with
      | mk r gr2 =>
        rw [hres] at hloop
        cases r <;> simpa [hres] using frameStep_trans hbase hloop

theorem reset_eq_of_frameStep {a b : Grid} (h : FrameStep a b) : b.reset = a.reset := by
  obtain ⟨⟨hw, hh, hn⟩, hout⟩ := h
  refine grid_fields_eq hw hh ?_
  funext y x
  unfold Grid.reset
  rw [hw, hh]
  by_cases hin : x < a.width ∧ y < a.height
  · simp only [hin, if_true]
    obtain ⟨ex, ey, ew⟩ := hn y x
    exact node_fields_eq ex ey ew rfl rfl rfl rfl
  · simp only [hin, if_false]
    exact hout y x hin

theorem findPathRun_congr_reset {a b : Grid} (h : b.reset = a.reset)
    (sx sy ex ey : Int) (diagonal : Bool) :
    findPathRun b sx sy ex ey diagonal = findPathRun a sx sy ex ey diagonal := by
  unfold findPathRun
  rw [h]

/-- C6: running `findPath` twice with identical arguments on the grid state
left behind by the first run yields the same path: the second search is
unaffected by the scratch state of the first. -/
theorem claim6_idempotent (gr0 : Grid) (sx sy ex ey : Int) (diagonal : Bool)
    (hwf : gr0.WF) :
    (findPathRun ((findPathRun gr0 sx sy ex ey diagonal).2) sx sy ex ey diagonal).1 =
      (findPathRun gr0 sx sy ex ey diagonal).1 := by
  rw [findPathRun_congr_reset
    (reset_eq_of_frameStep (frameStep_findPathRun gr0 sx sy ex ey diagonal hwf))]

theorem claim6_idempotent_witness :
    (Grid.make 3 3).WF ∧
      (findPathRun ((findPathRun (Grid.make 3 3) 0 0 2 2 false).2) 0 0 2 2 false).1 =
        (findPathRun (Grid.make 3 3) 0 0 2 2 false).1 :=
  ⟨by decide, claim6_idempotent (Grid.make 3 3) 0 0 2 2 false (by decide)⟩

/-! ### The search invariant -/

/-- Coordinate naming an in-bounds, walkable cell of `gr`. -/
def InGrid (gr : Grid) (c : Nat × Nat) : Prop :=
  c.1 < gr.width ∧ c.2 < gr.height ∧ (nodeAt gr c).walkable = true

theorem inGrid_of_scratchOnly {a b : Grid} (hs : ScratchOnly a b) {c : Nat × Nat}
    (h : InGrid a c) : InGrid b c := by
  obtain ⟨hw, hh, hn⟩ := hs
  obtain ⟨h1, h2, h3⟩ := h
  obtain ⟨_, _, e3⟩ := hn c.2 c.1
  refine ⟨hw ▸ h1, hh ▸ h2, ?_⟩
  unfold nodeAt
  rw [e3]
  exact h3

theorem updateNode_nodes_ne (gr : Grid) (c : Nat × Nat) (fn : Node → Node)
    {d : Nat × Nat} (h : d ≠ c) : nodeAt (updateNode gr c fn) d = nodeAt gr d := by
  unfold updateNode nodeAt
  have hne : ¬(d.1 = c.1 ∧ d.2 = c.2) := by
    intro hc
    exact h (Prod.ext hc.1 hc.2)
  simp [hne]

theorem updateNode_nodes_self (gr : Grid) (c : Nat × Nat) (fn : Node → Node) :
    nodeAt (updateNode gr c fn) c = fn (nodeAt gr c) := by
  unfold updateNode nodeAt
  simp

/-- Invariant of the main search loop.  `sc`, `ec` are the start and end
coordinates, the grid `gr` carries the scratch fields, `openS` and `closed`
are the open and closed sets as coordinate lists. -/
structure SInv (sc ec : Nat × Nat) (diagonal : Bool)
    (gr : Grid) (openS closed : List (Nat × Nat)) : Prop where
  wf : gr.WF
  openIn : ∀ c ∈ openS, InGrid gr c
  closedIn : ∀ c ∈ closed, InGrid gr c
  openNodup : openS.Nodup
  closedNodup : closed.Nodup
  disj : ∀ c ∈ openS, c ∉ closed
  ecNotClosed : ec ∉ closed
  scMem : sc ∈ openS ∨ sc ∈ closed
  scStart : sc ∈ openS → openS = [sc] ∧ closed = []
  scRoot : (nodeAt gr sc).parent = none ∧ (nodeAt gr sc).g = 0
  chain : ∀ c, c ∈ openS ∨ c ∈ closed → c ≠ sc →
    ∃ p, (nodeAt gr c).parent = some p ∧ p ∈ closed ∧ stepOk diagonal p c = true ∧
      (nodeAt gr c).g = (nodeAt gr p).g + 1
  gBound : ∀ c, c ∈ openS ∨ c ∈ closed → (nodeAt gr c).g ≤ closed.length
  hf : ∀ c ∈ openS, (nodeAt gr c).h = manh c ec ∧
    (nodeAt gr c).f = (nodeAt gr c).g + manh c ec

theorem SInv.scClosed {sc ec : Nat × Nat} {diagonal : Bool} {gr : Grid}
    {openS closed : List (Nat × Nat)} (inv : SInv sc ec diagonal gr openS closed)
    {current : Nat × Nat} (hcur : current ∈ closed) : sc ∈ closed := by
  rcases inv.scMem with h | h
  · obtain ⟨_, hcl⟩ := inv.scStart h
    rw [hcl] at hcur
    cases hcur
  · exact h

theorem relaxFn_x (e : Node) (c : Nat × Nat) (tg : Nat) (n : Node) :
    (relaxFn e c tg n).x = n.x := rfl

theorem relaxFn_y (e : Node) (c : Nat × Nat) (tg : Nat) (n : Node) :
    (relaxFn e c tg n).y = n.y := rfl

theorem relaxFn_walkable (e : Node) (c : Nat × Nat) (tg : Nat) (n : Node) :
    (relaxFn e c tg n).walkable = n.walkable := rfl

theorem relaxFn_g (e : Node) (c : Nat × Nat) (tg : Nat) (n : Node) :
    (relaxFn e c tg n).g = tg := rfl

theorem relaxFn_h (e : Node) (c : Nat × Nat) (tg : Nat) (n : Node) :
    (relaxFn e c tg n).h = heuristic n e := rfl

theorem relaxFn_f (e : Node) (c : Nat × Nat) (tg : Nat) (n : Node) :
    (relaxFn e c tg n).f = tg + heuristic n e := rfl

theorem relaxFn_parent (e : Node) (c : Nat × Nat) (tg : Nat) (n : Node) :
    (relaxFn e c tg n).parent = some c := rfl

theorem relaxStep_eq_closed {endNode : Node} {closed : List (Nat × Nat)}
    {current : Nat × Nat} {st : Grid × List (Nat × Nat)} {nb : Node}
    (h : (nb.x, nb.y) ∈ closed) : relaxStep endNode closed current st nb = st := by
  unfold relaxStep
  simp [h]

theorem relaxStep_eq_skip {endNode : Node} {closed : List (Nat × Nat)}
    {current : Nat × Nat} {st : Grid × List (Nat × Nat)} {nb : Node}
    (h1 : (nb.x, nb.y) ∉ closed) (h2 : (nb.x, nb.y) ∈ st.2)
    (h3 : (nodeAt st.1 current).g + 1 ≥ (nodeAt st.1 (nb.x, nb.y)).g) :
    relaxStep endNode closed current st nb = st := by
  unfold relaxStep
  simp [h1, h2, h3]

theorem relaxStep_eq_improve {endNode : Node} {closed : List (Nat × Nat)}
    {current : Nat × Nat} {st : Grid × List (Nat × Nat)} {nb : Node}
    (h1 : (nb.x, nb.y) ∉ closed) (h2 : (nb.x, nb.y) ∈ st.2)
    (h3 : ¬((nodeAt st.1 current).g + 1 ≥ (nodeAt st.1 (nb.x, nb.y)).g)) :
    relaxStep endNode closed current st nb =
      (updateNode st.1 (nb.x, nb.y)
        (relaxFn endNode current ((nodeAt st.1 current).g + 1)), st.2) := by
  unfold relaxStep
  simp [h1, h2, h3]

theorem relaxStep_eq_push {endNode : Node} {closed : List (Nat × Nat)}
    {current : Nat × Nat} {st : Grid × List (Nat × Nat)} {nb : Node}
    (h1 : (nb.x, nb.y) ∉ closed) (h2 : (nb.x, nb.y) ∉ st.2) :
    relaxStep endNode closed current st nb =
      (updateNode st.1 (nb.x, nb.y)
        (relaxFn endNode current ((nodeAt st.1 current).g + 1)), st.2 ++ [(nb.x, nb.y)]) := by
  unfold relaxStep
  simp [h1, h2]

theorem heuristic_eq_manh {gr : Grid} (hwf : gr.WF) {c : Nat × Nat}
    (h1 : c.1 < gr.width) (h2 : c.2 < gr.height) (e : Node) :
    heuristic (nodeAt gr c) e = manh c (e.x, e.y) := by
  obtain ⟨hx, hy⟩ := hwf c.2 h2 c.1 h1
  unfold heuristic manh nodeAt
  rw [hx, hy]

/-- Preservation of the invariant by the neighbor field update. -/
theorem relaxUpd_SInv {endNode : Node} {sc : Nat × Nat} {diagonal : Bool}
    {closed : List (Nat × Nat)} {current : Nat × Nat} (hcur : current ∈ closed)
    {gr : Grid} {openS : List (Nat × Nat)}
    (inv : SInv sc (endNode.x, endNode.y) diagonal gr openS closed)
    (hgcur : (nodeAt gr current).g + 1 ≤ closed.length)
    {nc : Nat × Nat} (hin : InGrid gr nc) (hstep : stepOk diagonal current nc = true)
    (hnclosed : nc ∉ closed)
    {openS' : List (Nat × Nat)}
    (hmem : ∀ c, c ∈ openS' → c ∈ openS ∨ c = nc)
    (hnodup : openS'.Nodup) :
    SInv sc (endNode.x, endNode.y) diagonal
      (updateNode gr nc (relaxFn endNode current ((nodeAt gr current).g + 1)))
      openS' closed := by
  set tg := (nodeAt gr current).g + 1 with htg
  set gr' := updateNode gr nc (relaxFn endNode current tg) with hgr'
  have scs : ScratchOnly gr gr' :=
    scratchOnly_updateNode gr nc _ (fun n => ⟨rfl, rfl, rfl⟩)
  have hscC : sc ∈ closed := inv.scClosed hcur
  have hncsc : nc ≠ sc := by
    intro h
    exact hnclosed (h ▸ hscC)
  have hcurne : current ≠ nc := by
    intro h
    exact hnclosed (h ▸ hcur)
  have hne : ∀ d : Nat × Nat, d ≠ nc → nodeAt gr' d = nodeAt gr d := by
    intro d hd
    exact updateNode_nodes_ne gr nc _ hd
  have hself : nodeAt gr' nc = relaxFn endNode current tg (nodeAt gr nc) :=
    updateNode_nodes_self gr nc _
  refine ⟨wf_of_scratchOnly scs inv.wf, ?_, ?_, hnodup, inv.closedNodup, ?_,
    inv.ecNotClosed, Or.inr hscC, ?_, ?_, ?_, ?_, ?_⟩
  · intro c hc
    rcases hmem c hc with h | h
    · exact inGrid_of_scratchOnly scs (inv.openIn c h)
    · subst h
      exact inGrid_of_scratchOnly scs hin
  · intro c hc
    exact inGrid_of_scratchOnly scs (inv.closedIn c hc)
  · intro c hc
    rcases hmem c hc with h | h
    · exact inv.disj c h
    · subst h
      exact hnclosed
  · intro hsc
    rcases hmem sc hsc with h | h
    · obtain ⟨_, hcl⟩ := inv.scStart h
      rw [hcl] at hcur
      cases hcur
    · exact absurd h.symm hncsc
  · rw [hne sc (Ne.symm hncsc)]
    exact inv.scRoot
  · intro c hc hcsc
    by_cases hcnc : c = nc
    · subst hcnc
      refine ⟨current, ?_, hcur, hstep, ?_⟩
      · rw [hself, relaxFn_parent]
      · rw [hself, relaxFn_g, hne current hcurne]
    · obtain ⟨p, hp1, hp2, hp3, hp4⟩ := by
        refine inv.chain c ?_ hcsc
        rcases hc with h | h
        · rcases hmem c h with h' | h'
          · exact Or.inl h'
          · exact absurd h' hcnc
        · exact Or.inr h
      have hpnc : p ≠ nc := by
        intro h
        exact hnclosed (h ▸ hp2)
      refine ⟨p, ?_, hp2, hp3, ?_⟩
      · rw [hne c hcnc]
        exact hp1
      · rw [hne c hcnc, hne p hpnc]
        exact hp4
  · intro c hc
    by_cases hcnc : c = nc
    · subst hcnc
      rw [hself, relaxFn_g]
      exact hgcur
    · rw [hne c hcnc]
      refine inv.gBound c ?_
      rcases hc with h | h
      · rcases hmem c h with h' | h'
        · exact Or.inl h'
        · exact absurd h' hcnc
      · exact Or.inr h
  · intro c hc
    by_cases hcnc : c = nc
    · subst hcnc
      rw [hself, relaxFn_h, relaxFn_f, relaxFn_g]
      rw [heuristic_eq_manh inv.wf hin.1 hin.2.1]
      exact ⟨rfl, rfl⟩
    · rw [hne c hcnc]
      refine inv.hf c ?_
      rcases hmem c hc with h | h
      · exact h
      · exact absurd h hcnc

/-- One neighbor-loop step preserves the invariant and leaves every closed
cell's record (in particular `current`'s) unchanged. -/
theorem relaxStep_SInv {endNode : Node} {sc : Nat × Nat} {diagonal : Bool}
    {closed : List (Nat × Nat)} {current : Nat × Nat} (hcur : current ∈ closed)
    {st : Grid × List (Nat × Nat)}
    (inv : SInv sc (endNode.x, endNode.y) diagonal st.1 st.2 closed)
    (hgcur : (nodeAt st.1 current).g + 1 ≤ closed.length)
    {nb : Node} (hin : InGrid st.1 (nb.x, nb.y))
    (hstep : stepOk diagonal current (nb.x, nb.y) = true) :
    SInv sc (endNode.x, endNode.y) diagonal
      (relaxStep endNode closed current st nb).1
      (relaxStep endNode closed current st nb).2 closed ∧
    (∀ d ∈ closed, nodeAt (relaxStep endNode closed current st nb).1 d = nodeAt st.1 d) := by
  by_cases h1 : (nb.x, nb.y) ∈ closed
  · rw [relaxStep_eq_closed h1]
    exact ⟨inv, fun d _ => rfl⟩
  · by_cases h2 : (nb.x, nb.y) ∈ st.2
    · by_cases h3 : (nodeAt st.1 current).g + 1 ≥ (nodeAt st.1 (nb.x, nb.y)).g
      · rw [relaxStep_eq_skip h1 h2 h3]
        exact ⟨inv, fun d _ => rfl⟩
      · rw [relaxStep_eq_improve h1 h2 h3]
        refine ⟨relaxUpd_SInv hcur inv hgcur hin hstep h1
          (fun c hc => Or.inl hc) inv.openNodup, ?_⟩
        intro d hd
        refine updateNode_nodes_ne st.1 (nb.x, nb.y) _ ?_
        intro h
        exact h1 (h ▸ hd)
    · rw [relaxStep_eq_push h1 h2]
      refine ⟨relaxUpd_SInv hcur inv hgcur hin hstep h1 ?_ ?_, ?_⟩
      · intro c hc
        rcases List.mem_append.mp hc with h | h
        · exact Or.inl h
        · exact Or.inr (List.mem_singleton.mp h)
      · rw [List.nodup_append]
        exact ⟨inv.openNodup, List.nodup_singleton _, by
          intro a ha hb
          rw [List.mem_singleton] at hb
          exact h2 (hb ▸ ha)⟩
      · intro d hd
        refine updateNode_nodes_ne st.1 (nb.x, nb.y) _ ?_
        intro h
        exact h1 (h ▸ hd)

/-- The whole neighbor loop preserves the invariant. -/
theorem relaxFold_SInv {endNode : Node} {sc : Nat × Nat} {diagonal : Bool}
    {closed : List (Nat × Nat)} {current : Nat × Nat} (hcur : current ∈ closed) :
    ∀ (nbs : List Node) (st : Grid × List (Nat × Nat)),
      SInv sc (endNode.x, endNode.y) diagonal st.1 st.2 closed →
      (nodeAt st.1 current).g + 1 ≤ closed.length →
      (∀ nb ∈ nbs, InGrid st.1 (nb.x, nb.y) ∧
        stepOk diagonal current (nb.x, nb.y) = true) →
      SInv sc (endNode.x, endNode.y) diagonal
        ((nbs.foldl (relaxStep endNode closed current) st).1)
        ((nbs.foldl (relaxStep endNode closed current) st).2) closed := by
  intro nbs
  induction nbs with
  | nil =>
    intro st inv _ _
    exact inv
  | cons nb nbs ih =>
    intro st inv hgcur hnbs
    rw [List.foldl_cons]
    obtain ⟨hin, hstep⟩ := hnbs nb (List.mem_cons_self _ _)
    obtain ⟨inv', hfrozen⟩ := relaxStep_SInv hcur inv hgcur hin hstep
    have scs : ScratchOnly st.1 (relaxStep endNode closed current st nb).1 :=
      scratchOnly_relaxStep endNode closed current st nb
    refine ih _ inv' ?_ ?_
    · rw [hfrozen current hcur]
      exact hgcur
    · intro nb' hnb'
      obtain ⟨hin', hstep'⟩ := hnbs nb' (List.mem_cons_of_mem _ hnb')
      exact ⟨inGrid_of_scratchOnly scs hin', hstep'⟩

theorem astarLoop_succ_cons (ec : Nat × Nat) (endNode : Node) (diagonal : Bool)
    (fuel : Nat) (gr : Grid) (o : Nat × Nat) (os closed : List (Nat × Nat)) :
    astarLoop ec endNode diagonal (fuel + 1) gr (o :: os) closed =
      match astarStep ec endNode diagonal gr o os closed with
      | StepResult.done p gr2 => (some p, gr2)
      | StepResult.next gr2 open2 closed2 =>
          astarLoop ec endNode diagonal fuel gr2 open2 closed2 := rfl

theorem reset_node (gr0 : Grid) (y x : Nat) (h : x < gr0.width ∧ y < gr0.height) :
    (gr0.reset).nodes y x =
      { gr0.nodes y x with g := 0, h := 0, f := 0, parent := none } := by
  unfold Grid.reset
  simp [h]

theorem reconstructPath_none (fuel : Nat) (gr : Grid) (acc : List (Nat × Nat)) :
    reconstructPath fuel gr none acc = acc := by
  cases fuel <;> rfl

theorem heuristic_manh_pairs (a b : Node) : heuristic a b = manh (a.x, a.y) (b.x, b.y) := rfl

/-- Every neighbor of `current`'s node is an in-grid cell one permitted step
away from `current`. -/
theorem mem_getNeighbors_step {gr : Grid} (hwf : gr.WF) {current : Nat × Nat}
    (hx : (nodeAt gr current).x = current.1) (hy : (nodeAt gr current).y = current.2)
    {diagonal : Bool} {nb : Node}
    (hnb : nb ∈ gr.getNeighbors (nodeAt gr current) diagonal) :
    InGrid gr (nb.x, nb.y) ∧ stepOk diagonal current (nb.x, nb.y) = true := by
  obtain ⟨d, hd, hget⟩ := (mem_getNeighbors_iff gr _ diagonal nb).mp hnb
  obtain ⟨hw, hnb'⟩ := (getNode_some_iff _ _ _ _).mp hget
  obtain ⟨hx0, hxw, hy0, hyh, hwk⟩ := isWalkable_bounds _ _ _ hw
  have hxlt : (((nodeAt gr current).x : Int) + d.1).toNat < gr.width := by omega
  have hylt : (((nodeAt gr current).y : Int) + d.2).toNat < gr.height := by omega
  obtain ⟨hfx, hfy⟩ := hwf _ hylt _ hxlt
  have hnbx : nb.x = (((nodeAt gr current).x : Int) + d.1).toNat := by rw [hnb', hfx]
  have hnby : nb.y = (((nodeAt gr current).y : Int) + d.2).toNat := by rw [hnb', hfy]
  have hix : (nb.x : Int) = (current.1 : Int) + d.1 := by
    rw [hnbx, Int.toNat_of_nonneg hx0, hx]
  have hiy : (nb.y : Int) = (current.2 : Int) + d.2 := by
    rw [hnby, Int.toNat_of_nonneg hy0, hy]
  constructor
  · refine ⟨?_, ?_, ?_⟩
    · show nb.x < gr.width
      rw [hnbx]; exact hxlt
    · show nb.y < gr.height
      rw [hnby]; exact hylt
    · show (nodeAt gr (nb.x, nb.y)).walkable = true
      unfold nodeAt
      show (gr.nodes nb.y nb.x).walkable = true
      rw [hnbx, hnby]
      exact hwk
  · unfold stepOk
    rw [List.any_eq_true]
    refine ⟨d, hd, ?_⟩
    rw [Bool.and_eq_true, beq_iff_eq, beq_iff_eq]
    exact ⟨hix.symm, hiy.symm⟩

theorem closed_card_bound {gr : Grid} {closed : List (Nat × Nat)}
    (hnodup : closed.Nodup) (hin : ∀ c ∈ closed, InGrid gr c) :
    closed.length ≤ gr.width * gr.height := by
  rw [← List.toFinset_card_of_nodup hnodup]
  have hsub : closed.toFinset ⊆ Finset.range gr.width ×ˢ Finset.range gr.height := by
    intro c hc
    rw [List.mem_toFinset] at hc
    obtain ⟨h1, h2, _⟩ := hin c hc
    rw [Finset.mem_product, Finset.mem_range, Finset.mem_range]
    exact ⟨h1, h2⟩
  calc closed.toFinset.card
      ≤ (Finset.range gr.width ×ˢ Finset.range gr.height).card := Finset.card_le_card hsub
    _ = gr.width * gr.height := by rw [Finset.card_product, Finset.card_range, Finset.card_range]

/-- The non-returning loop step preserves the invariant and grows the closed
set by exactly the popped cell. -/
theorem astarStep_next_SInv {sc : Nat × Nat} {endNode : Node} {diagonal : Bool}
    {gr : Grid} {o : Nat × Nat} {os closed : List (Nat × Nat)}
    (inv : SInv sc (endNode.x, endNode.y) diagonal gr (o :: os) closed)
    {gr2 : Grid} {open2 closed2 : List (Nat × Nat)}
    (h : astarStep (endNode.x, endNode.y) endNode diagonal gr o os closed =
      StepResult.next gr2 open2 closed2) :
    SInv sc (endNode.x, endNode.y) diagonal gr2 open2 closed2 ∧
      closed2 = closed ++ [(scanMin gr os o 0 1).1] := by
  have smspec := scanMin_spec gr o os
  set sel := scanMin gr os o 0 1 with hsel
  unfold astarStep at h
  by_cases hc : sel.1 = (endNode.x, endNode.y)
  · rw [← hsel] at h
    simp only [hc, if_true] at h
    exact StepResult.noConfusion h
  · rw [← hsel] at h
    simp only [hc, if_false] at h
    cases h
    have hmemcur : sel.1 ∈ o :: os := List.get?_mem smspec.1
    have hlen : sel.2 < (o :: os).length := by
      obtain ⟨hl, _⟩ := List.get?_eq_some.mp smspec.1
      exact hl
    have hnotmem : sel.1 ∉ (o :: os).eraseIdx sel.2 := by
      intro hmem
      obtain ⟨i, hine, hget⟩ := (List.mem_eraseIdx_iff_getElem?).mp hmem
      have hgi : (o :: os).get? i = some sel.1 := by
        rw [List.get?_eq_getElem?]
        exact hget
      exact hine (List.get?_inj hlen inv.openNodup (smspec.1.trans hgi.symm)).symm
    have hsubl := List.eraseIdx_sublist (o :: os) sel.2
    have hsub : ∀ c ∈ (o :: os).eraseIdx sel.2, c ∈ o :: os := fun c hc => hsubl.subset hc
    have hcurnotclosed : sel.1 ∉ closed := inv.disj sel.1 hmemcur
    have hcurIn : InGrid gr sel.1 := inv.openIn sel.1 hmemcur
    have hcurclosed1 : sel.1 ∈ closed ++ [sel.1] :=
      List.mem_append.mpr (Or.inr (List.mem_singleton.mpr rfl))
    have hmid : SInv sc (endNode.x, endNode.y) diagonal gr
        ((o :: os).eraseIdx sel.2) (closed ++ [sel.1]) := by
      refine ⟨inv.wf, ?_, ?_, ?_, ?_, ?_, ?_, ?_, ?_, inv.scRoot, ?_, ?_, ?_⟩
      · intro c hc
        exact inv.openIn c (hsub c hc)
      · intro c hc
        rcases List.mem_append.mp hc with h' | h'
        · exact inv.closedIn c h'
        · rw [List.mem_singleton] at h'
          subst h'
          exact hcurIn
      · exact inv.openNodup.sublist hsubl
      · rw [List.nodup_append]
        refine ⟨inv.closedNodup, List.nodup_singleton _, ?_⟩
        intro a ha hb
        rw [List.mem_singleton] at hb
        subst hb
        exact hcurnotclosed ha
      · intro c hc hc2
        rcases List.mem_append.mp hc2 with h' | h'
        · exact inv.disj c (hsub c hc) h'
        · rw [List.mem_singleton] at h'
          subst h'
          exact hnotmem hc
      · intro hec
        rcases List.mem_append.mp hec with h' | h'
        · exact inv.ecNotClosed h'
        · rw [List.mem_singleton] at h'
          exact hc h'.symm
      · rcases inv.scMem with h' | h'
        · obtain ⟨hop, hcl⟩ := inv.scStart h'
          have hosc : o = sc ∧ os = [] := by
            rw [List.cons.injEq] at hop
            exact hop
          have hcur_sc : sel.1 = sc := by
            rw [hsel, hosc.2]
            rw [hosc.1]
            rfl
          exact Or.inr (List.mem_append.mpr (Or.inr (by
            rw [List.mem_singleton, hcur_sc])))
        · exact Or.inr (List.mem_append.mpr (Or.inl h'))
      · intro hsc
        exfalso
        have hsc' : sc ∈ o :: os := hsub sc hsc
        obtain ⟨hop, hcl⟩ := inv.scStart hsc'
        have hosc : o = sc ∧ os = [] := by
          rw [List.cons.injEq] at hop
          exact hop
        have hsel2 : sel.2 = 0 := by
          rw [hsel, hosc.2]
          rfl
        rw [hsel2, hop] at hsc
        exact List.not_mem_nil sc hsc
      · intro c hcmem hcsc
        obtain ⟨p, hp1, hp2, hp3, hp4⟩ := by
          refine inv.chain c ?_ hcsc
          rcases hcmem with h' | h'
          · exact Or.inl (hsub c h')
          · rcases List.mem_append.mp h' with h'' | h''
            · exact Or.inr h''
            · rw [List.mem_singleton] at h''
              subst h''
              exact Or.inl hmemcur
        exact ⟨p, hp1, List.mem_append.mpr (Or.inl hp2), hp3, hp4⟩
      · intro c hcmem
        have h' : (nodeAt gr c).g ≤ closed.length := by
          refine inv.gBound c ?_
          rcases hcmem with h' | h'
          · exact Or.inl (hsub c h')
          · rcases List.mem_append.mp h' with h'' | h''
            · exact Or.inr h''
            · rw [List.mem_singleton] at h''
              subst h''
              exact Or.inl hmemcur
        rw [List.length_append, List.length_singleton]
        omega
      · intro c hc
        exact inv.hf c (hsub c hc)
    have hgcur : (nodeAt gr sel.1).g + 1 ≤ (closed ++ [sel.1]).length := by
      have := inv.gBound sel.1 (Or.inl hmemcur)
      rw [List.length_append, List.length_singleton]
      omega
    have hcx : (nodeAt gr sel.1).x = sel.1.1 ∧ (nodeAt gr sel.1).y = sel.1.2 := by
      have := inv.wf sel.1.2 hcurIn.2.1 sel.1.1 hcurIn.1
      exact this
    refine ⟨?_, rfl⟩
    refine relaxFold_SInv hcurclosed1 _ (gr, (o :: os).eraseIdx sel.2) hmid hgcur ?_
    intro nb hnb
    exact mem_getNeighbors_step inv.wf hcx.1 hcx.2 hnb

/-- With fuel `width*height + 1` the search loop always returns (the loop
body runs at most `width*height` times). -/
theorem astarLoop_terminates {sc : Nat × Nat} {endNode : Node} {diagonal : Bool} :
    ∀ (fuel : Nat) (gr : Grid) (openS closed : List (Nat × Nat)),
      SInv sc (endNode.x, endNode.y) diagonal gr openS closed →
      gr.width * gr.height + 1 ≤ fuel + closed.length →
      ∃ p gr2, astarLoop (endNode.x, endNode.y) endNode diagonal fuel gr openS closed =
        (some p, gr2) := by
  intro fuel
  induction fuel with
  | zero =>
    intro gr openS closed inv hle
    exfalso
    have := closed_card_bound inv.closedNodup inv.closedIn
    omega
  | succ fuel ih =>
    intro gr openS closed inv hle
    match openS with
    | [] => exact ⟨[], gr, rfl⟩
    | o :: os =>
      cases hstep : astarStep (endNode.x, endNode.y) endNode diagonal gr o os closed with
      | done p gr2 =>
        refine ⟨p, gr2, ?_⟩
        rw [astarLoop_succ_cons, hstep]
      | next gr2 open2 closed2 =>
        obtain ⟨inv2, hcl2⟩ := astarStep_next_SInv inv hstep
        have hdim : gr2.width = gr.width ∧ gr2.height = gr.height := by
          have hs := astarStep_next_scratch hstep
          exact ⟨hs.1, hs.2.1⟩
        obtain ⟨p, gr3, hp⟩ := ih gr2 open2 closed2 inv2 (by
          rw [hdim.1, hdim.2, hcl2, List.length_append, List.length_singleton]
          omega)
        refine ⟨p, gr3, ?_⟩
        rw [astarLoop_succ_cons, hstep]
        exact hp

theorem head?_append_of_some {α : Type} {l l₂ : List α} {a : α} (h : l.head? = some a) :
    (l ++ l₂).head? = some a := by
  cases l with
  | nil => cases h
  | cons b t =>
    cases h
    rfl

/-- Following the parent chain from any discovered cell yields a contiguous
route from the start cell, of length the cell's `g` plus one, visiting only
discovered cells. -/
theorem reconstruct_spec {sc ec : Nat × Nat} {diagonal : Bool} {gr : Grid}
    {openS closed : List (Nat × Nat)} (inv : SInv sc ec diagonal gr openS closed) :
    ∀ (gval : Nat) (c : Nat × Nat), (c ∈ openS ∨ c ∈ closed) → (nodeAt gr c).g = gval →
      ∀ (fuel : Nat) (acc : List (Nat × Nat)), gval < fuel →
      ∃ l, reconstructPath fuel gr (some c) acc = l ++ acc ∧
        l.head? = some sc ∧ l.getLast? = some c ∧ l.length = gval + 1 ∧
        List.Chain' (fun a b => stepOk diagonal a b = true) l ∧
        ∀ a ∈ l, a ∈ openS ∨ a ∈ closed := by
  intro gval
  induction gval using Nat.strong_induction_on with
  | _ gval ih =>
    intro c hcmem hg fuel acc hfuel
    obtain ⟨f, rfl⟩ : ∃ f, fuel = f + 1 := ⟨fuel - 1, by omega⟩
    by_cases hcsc : c = sc
    · subst hcsc
      have hg0 : gval = 0 := by rw [← hg, inv.scRoot.2]
      refine ⟨[c], ?_, rfl, rfl, by simp [hg0], List.chain'_singleton c, ?_⟩
      · show reconstructPath (f + 1) gr (some c) acc = c :: acc
        unfold reconstructPath
        rw [inv.scRoot.1, reconstructPath_none]
      · intro a ha
        rw [List.mem_singleton] at ha
        subst ha
        exact hcmem
    · obtain ⟨p, hp1, hp2, hp3, hp4⟩ := inv.chain c hcmem hcsc
      have hgp : (nodeAt gr p).g < gval := by omega
      obtain ⟨l', heq, hhead, hlast, hlen, hchain, hmem⟩ :=
        ih (nodeAt gr p).g hgp p (Or.inr hp2) rfl f (c :: acc) (by omega)
      refine ⟨l' ++ [c], ?_, head?_append_of_some hhead, List.getLast?_concat l', ?_, ?_, ?_⟩
      · show reconstructPath (f + 1) gr (some c) acc = (l' ++ [c]) ++ acc
        unfold reconstructPath
        rw [hp1, heq, List.append_assoc]
        rfl
      · rw [List.length_append, List.length_singleton, hlen]
        omega
      · rw [List.chain'_append]
        refine ⟨hchain, List.chain'_singleton c, ?_⟩
        intro x hx y hy
        rw [hlast] at hx
        cases hx
        cases hy
        exact hp3
      · intro a ha
        rcases List.mem_append.mp ha with h' | h'
        · exact hmem a h'
        · rw [List.mem_singleton] at h'
          subst h'
          exact hcmem

/-- Characterization of a returning loop step: the popped cell is the goal,
the grid is unchanged, and the result is the reconstructed parent chain. -/
theorem astarStep_done_spec {endNode : Node} {diagonal : Bool}
    {gr : Grid} {o : Nat × Nat} {os closed : List (Nat × Nat)}
    {pp : List (Nat × Nat)} {gr' : Grid}
    (h : astarStep (endNode.x, endNode.y) endNode diagonal gr o os closed =
      StepResult.done pp gr') :
    gr' = gr ∧ (endNode.x, endNode.y) ∈ o :: os ∧
      (scanMin gr os o 0 1).1 = (endNode.x, endNode.y) ∧
      pp = reconstructPath (gr.width * gr.height + 1) gr
        (some (endNode.x, endNode.y)) [] := by
  have smspec := scanMin_spec gr o os
  unfold astarStep at h
  by_cases hc : (scanMin gr os o 0 1).1 = (endNode.x, endNode.y)
  · simp only [hc, if_true] at h
    cases h
    refine ⟨rfl, ?_, hc, rfl⟩
    rw [← hc]
    exact List.get?_mem smspec.1
  · simp only [hc, if_false] at h
    exact StepResult.noConfusion h

/-- Soundness of the search loop: any returned non-empty path runs from the
start coordinate to the goal coordinate through pairwise-adjacent in-grid
cells. -/
theorem astarLoop_sound {sc : Nat × Nat} {endNode : Node} {diagonal : Bool} :
    ∀ (fuel : Nat) (gr : Grid) (openS closed : List (Nat × Nat)),
      SInv sc (endNode.x, endNode.y) diagonal gr openS closed →
      ∀ (p : List (Nat × Nat)) (gr2 : Grid),
        astarLoop (endNode.x, endNode.y) endNode diagonal fuel gr openS closed =
          (some p, gr2) →
        p = [] ∨ (p.head? = some sc ∧ p.getLast? = some (endNode.x, endNode.y) ∧
          List.Chain' (fun a b => stepOk diagonal a b = true) p ∧
          ∀ a ∈ p, InGrid gr2 a) := by
  intro fuel
  induction fuel with
  | zero =>
    intro gr openS closed inv p gr2 h
    exact absurd (congrArg Prod.fst h) (by simp [astarLoop])
  | succ fuel ih =>
    intro gr openS closed inv p gr2 h
    match openS with
    | [] =>
      left
      have h' : ((some ([] : List (Nat × Nat)), gr) :
          Option (List (Nat × Nat)) × Grid) = (some p, gr2) := h
      rw [Prod.mk.injEq, Option.some.injEq] at h'
      exact h'.1.symm
    | o :: os =>
      rw [astarLoop_succ_cons] at h
      cases hstep : astarStep (endNode.x, endNode.y) endNode diagonal gr o os closed with
      | done pp gr' =>
        rw [hstep] at h
        rw [Prod.mk.injEq, Option.some.injEq] at h
        obtain ⟨rfl, rfl⟩ := h
        obtain ⟨hgr, hecmem, _, hpp⟩ := astarStep_done_spec hstep
        rw [hgr]
        have hgbound : (nodeAt gr (endNode.x, endNode.y)).g < gr.width * gr.height + 1 := by
          have h1 := inv.gBound (endNode.x, endNode.y) (Or.inl hecmem)
          have h2 := closed_card_bound inv.closedNodup inv.closedIn
          omega
        obtain ⟨l, heq, hhead, hlast, _, hchain, hmem⟩ :=
          reconstruct_spec inv (nodeAt gr (endNode.x, endNode.y)).g (endNode.x, endNode.y)
            (Or.inl hecmem) rfl (gr.width * gr.height + 1) [] hgbound
        rw [List.append_nil] at heq
        rw [hpp, heq]
        right
        refine ⟨hhead, hlast, hchain, ?_⟩
        intro a ha
        rcases hmem a ha with h' | h'
        · exact inv.openIn a h'
        · exact inv.closedIn a h'
      | next gr' open2 closed2 =>
        rw [hstep] at h
        exact ih gr' open2 closed2 (astarStep_next_SInv inv hstep).1 p gr2 h

/-- The state set up by `findPath` before the main loop satisfies the
search invariant. -/
theorem initial_SInv (gr0 : Grid) (hwf : gr0.WF) (sx sy ex ey : Int) (diagonal : Bool)
    {startNode endNode : Node}
    (hs : (gr0.reset).getNode sx sy = some startNode)
    (he : (gr0.reset).getNode ex ey = some endNode) :
    SInv (startNode.x, startNode.y) (endNode.x, endNode.y) diagonal
      (updateNode gr0.reset (startNode.x, startNode.y)
        (fun n => { n with g := 0, h := heuristic startNode endNode,
                           f := heuristic startNode endNode }))
      [(startNode.x, startNode.y)]
      [] := by
  have hwfr : (gr0.reset).WF := wf_of_scratchOnly (scratchOnly_reset gr0) hwf
  obtain ⟨hw, hsn⟩ := (getNode_some_iff _ _ _ _).mp hs
  obtain ⟨hx0, hxw, hy0, hyh, hwk⟩ := isWalkable_bounds _ _ _ hw
  have hxlt : sx.toNat < (gr0.reset).width := by omega
  have hylt : sy.toNat < (gr0.reset).height := by omega
  obtain ⟨hfx, hfy⟩ := hwfr _ hylt _ hxlt
  have sfx : startNode.x = sx.toNat := by rw [hsn]; exact hfx
  have sfy : startNode.y = sy.toNat := by rw [hsn]; exact hfy
  set sc : Nat × Nat := (startNode.x, startNode.y) with hscdef
  set gr1 := updateNode gr0.reset sc
    (fun n => { n with g := 0, h := heuristic startNode endNode,
                       f := heuristic startNode endNode }) with hgr1
  have hscs : ScratchOnly gr0.reset gr1 :=
    scratchOnly_updateNode _ _ _ (fun n => ⟨rfl, rfl, rfl⟩)
  have hself : nodeAt gr1 sc =
      { nodeAt gr0.reset sc with g := 0, h := heuristic startNode endNode,
                                 f := heuristic startNode endNode } :=
    updateNode_nodes_self _ _ _
  have hscx : sc.1 < (gr0.reset).width := by
    show startNode.x < _
    rw [sfx]
    exact hxlt
  have hscy : sc.2 < (gr0.reset).height := by
    show startNode.y < _
    rw [sfy]
    exact hylt
  have hnodesc : nodeAt gr0.reset sc = (gr0.reset).nodes sy.toNat sx.toNat := by
    unfold nodeAt
    rw [hscdef]
    show (gr0.reset).nodes startNode.y startNode.x = _
    rw [sfx, sfy]
  have hwalk : (nodeAt gr1 sc).walkable = true := by
    rw [hself]
    show (nodeAt gr0.reset sc).walkable = true
    rw [hnodesc]
    exact hwk
  have hparent : (nodeAt gr0.reset sc).parent = none := by
    rw [hnodesc, reset_node gr0 sy.toNat sx.toNat ⟨hxlt, hylt⟩]
  have hInGrid : InGrid gr1 sc := ⟨hscx, hscy, hwalk⟩
  refine ⟨wf_of_scratchOnly hscs hwfr, ?_, ?_, List.nodup_singleton _, List.nodup_nil,
    ?_, List.not_mem_nil _, Or.inl (List.mem_singleton.mpr rfl), fun _ => ⟨rfl, rfl⟩,
    ?_, ?_, ?_, ?_⟩
  · intro c hc
    rw [List.mem_singleton] at hc
    subst hc
    exact hInGrid
  · intro c hc
    exact absurd hc (List.not_mem_nil c)
  · intro c _
    exact List.not_mem_nil c
  · constructor
    · rw [hself]
      show (nodeAt gr0.reset sc).parent = none
      exact hparent
    · rw [hself]
  · intro c hc hcsc
    rcases hc with h' | h'
    · rw [List.mem_singleton] at h'
      exact absurd h' hcsc
    · exact absurd h' (List.not_mem_nil c)
  · intro c hc
    rcases hc with h' | h'
    · rw [List.mem_singleton] at h'
      subst h'
      rw [hself]
      exact Nat.le_refl 0
    · exact absurd h' (List.not_mem_nil c)
  · intro c hc
    rw [List.mem_singleton] at hc
    subst hc
    rw [hself]
    refine ⟨?_, ?_⟩
    · show heuristic startNode endNode = manh sc (endNode.x, endNode.y)
      rw [heuristic_manh_pairs]
    · show heuristic startNode endNode = 0 + manh sc (endNode.x, endNode.y)
      rw [heuristic_manh_pairs, Nat.zero_add]

/-- C9: the search loop terminates on every grid and input: with fuel
`width*height + 1` (one check more than the maximal number of body
iterations, since each non-returning iteration moves one never-closed cell
into the closed set) the loop always returns a result. -/
theorem claim9_terminates (gr0 : Grid) (sx sy ex ey : Int) (diagonal : Bool)
    (hwf : gr0.WF) {startNode endNode : Node}
    (hs : (gr0.reset).getNode sx sy = some startNode)
    (he : (gr0.reset).getNode ex ey = some endNode) :
    ∀ fuel, gr0.width * gr0.height + 1 ≤ fuel →
      ∃ p gr2, astarLoop (endNode.x, endNode.y) endNode diagonal fuel
        (updateNode gr0.reset (startNode.x, startNode.y)
          (fun n => { n with g := 0, h := heuristic startNode endNode,
                             f := heuristic startNode endNode }))
        [(startNode.x, startNode.y)] [] = (some p, gr2) := by
  intro fuel hfuel
  refine astarLoop_terminates fuel _ _ []
    (initial_SInv gr0 hwf sx sy ex ey diagonal hs he) ?_
  simpa using hfuel

/-! ### Open-grid optimality: Manhattan-distance arithmetic -/

theorem reset_walkable (gr0 : Grid) (y x : Nat) :
    ((gr0.reset).nodes y x).walkable = (gr0.nodes y x).walkable := by
  unfold Grid.reset
  by_cases h : x < gr0.width ∧ y < gr0.height <;> simp [h]

theorem isWalkable_reset (gr0 : Grid) (x y : Int) :
    (gr0.reset).isWalkable x y = gr0.isWalkable x y := by
  unfold Grid.isWalkable Grid.isInBounds
  rw [reset_walkable]
  rfl

theorem scratchOnly_symm {a b : Grid} (h : ScratchOnly a b) : ScratchOnly b a := by
  obtain ⟨hw, hh, hn⟩ := h
  refine ⟨hw.symm, hh.symm, fun y x => ?_⟩
  obtain ⟨e1, e2, e3⟩ := hn y x
  exact ⟨e1.symm, e2.symm, e3.symm⟩

theorem getNode_fields {gr : Grid} (hwf : gr.WF) {x y : Int} {n : Node}
    (h : gr.getNode x y = some n) :
    n.x = x.toNat ∧ n.y = y.toNat := by
  obtain ⟨hw, hn⟩ := (getNode_some_iff _ _ _ _).mp h
  obtain ⟨hx0, hxw, hy0, hyh, _⟩ := isWalkable_bounds _ _ _ hw
  obtain ⟨hfx, hfy⟩ := hwf y.toNat (by omega) x.toNat (by omega)
  subst hn
  exact ⟨hfx, hfy⟩

theorem inGrid_isWalkable {gr : Grid} {c : Nat × Nat} (h : InGrid gr c) :
    gr.isWalkable (c.1 : Int) (c.2 : Int) = true := by
  obtain ⟨h1, h2, h3⟩ := h
  unfold Grid.isWalkable Grid.isInBounds
  simp only [Bool.and_eq_true, decide_eq_true_eq]
  refine ⟨⟨⟨⟨by omega, by omega⟩, by omega⟩, by omega⟩, ?_⟩
  rw [Int.toNat_natCast, Int.toNat_natCast]
  exact h3


theorem manh_self (a : Nat × Nat) : manh a a = 0 := by
  unfold manh
  omega

theorem manh_eq_zero {a b : Nat × Nat} (h : manh a b = 0) : a = b := by
  unfold manh at h
  refine Prod.ext ?_ ?_ <;> omega

theorem manh_triangle (a b c : Nat × Nat) : manh a c ≤ manh a b + manh b c := by
  unfold manh
  omega

theorem manh_comm (a b : Nat × Nat) : manh a b = manh b a := by
  unfold manh
  omega

/-- An orthogonal step moves Manhattan distance exactly one. -/
theorem stepOk_manh_one {a b : Nat × Nat} (h : stepOk false a b = true) :
    manh a b = 1 := by
  unfold stepOk directions at h
  simp only [Bool.false_eq_true, if_false, List.append_nil, List.any_cons,
    List.any_nil, Bool.or_eq_true, Bool.and_eq_true, beq_iff_eq, or_false] at h
  unfold manh
  rcases h with ⟨h1, h2⟩ | ⟨h1, h2⟩ | ⟨h1, h2⟩ | ⟨h1, h2⟩ <;> omega

theorem manh_adjacent {sc a b : Nat × Nat} (h : stepOk false a b = true) :
    manh sc b ≤ manh sc a + 1 := by
  have := manh_triangle sc a b
  rw [stepOk_manh_one h] at this
  exact this

/-- One orthogonal step from `c` toward `ec`, staying on the `sc`-to-`ec`
rectangle: it exists whenever `c ≠ ec`, stays in bounds, moves one unit
farther from `sc` and one unit closer to `ec`. -/
theorem step_toward {W H : Nat} {sc ec c : Nat × Nat}
    (hcW : c.1 < W) (hcH : c.2 < H) (heW : ec.1 < W) (heH : ec.2 < H)
    (hrect : manh sc c + manh c ec = manh sc ec) (hne : c ≠ ec) :
    ∃ v : Nat × Nat, stepOk false c v = true ∧
      manh sc v = manh sc c + 1 ∧ manh sc v + manh v ec = manh sc ec ∧
      v.1 < W ∧ v.2 < H := by
  have hstep : ∀ v : Nat × Nat, manh c v = 1 → stepOk false c v = true := by
    intro v hv
    unfold stepOk directions
    rw [List.any_eq_true]
    unfold manh at hv
    by_cases hx : c.1 = v.1
    · by_cases hy : (c.2 : Int) + 1 = (v.2 : Int)
      · refine ⟨(0, 1), by simp, ?_⟩
        rw [Bool.and_eq_true, beq_iff_eq, beq_iff_eq]
        constructor
        · simpa using congrArg (Int.ofNat) hx
        · simpa using hy
      · refine ⟨(0, -1), by simp, ?_⟩
        rw [Bool.and_eq_true, beq_iff_eq, beq_iff_eq]
        constructor
        · simpa using congrArg (Int.ofNat) hx
        · omega
    · by_cases hx1 : (c.1 : Int) + 1 = (v.1 : Int)
      · refine ⟨(1, 0), by simp, ?_⟩
        rw [Bool.and_eq_true, beq_iff_eq, beq_iff_eq]
        constructor
        · exact hx1
        · omega
      · refine ⟨(-1, 0), by simp, ?_⟩
        rw [Bool.and_eq_true, beq_iff_eq, beq_iff_eq]
        constructor
        · omega
        · omega
  by_cases hx : c.1 = ec.1
  · have hy : c.2 ≠ ec.2 := by
      intro h
      exact hne (Prod.ext hx h)
    by_cases hdir : c.2 < ec.2
    · refine ⟨(c.1, c.2 + 1), hstep _ (by unfold manh; omega), ?_, ?_, hcW, by omega⟩
      · unfold manh at hrect ⊢
        omega
      · unfold manh at hrect ⊢
        omega
    · refine ⟨(c.1, c.2 - 1), hstep _ (by unfold manh; omega), ?_, ?_, hcW, by omega⟩
      · unfold manh at hrect ⊢
        omega
      · unfold manh at hrect ⊢
        omega
  · by_cases hdir : c.1 < ec.1
    · refine ⟨(c.1 + 1, c.2), hstep _ (by unfold manh; omega), ?_, ?_, by omega, hcH⟩
      · unfold manh at hrect ⊢
        omega
      · unfold manh at hrect ⊢
        omega
    · refine ⟨(c.1 - 1, c.2), hstep _ (by unfold manh; omega), ?_, ?_, by omega, hcH⟩
      · unfold manh at hrect ⊢
        omega
      · unfold manh at hrect ⊢
        omega

/-- Grid in which every in-bounds cell is walkable. -/
def OpenGrid (gr : Grid) : Prop :=
  ∀ y, y < gr.height → ∀ x, x < gr.width → (gr.nodes y x).walkable = true

instance (gr : Grid) : Decidable (OpenGrid gr) := by
  unfold OpenGrid; exact Nat.decidableBallLT _ _

theorem openGrid_of_scratchOnly {a b : Grid} (hs : ScratchOnly a b) (h : OpenGrid a) :
    OpenGrid b := by
  obtain ⟨hw, hh, hn⟩ := hs
  intro y hy x hx
  obtain ⟨_, _, e3⟩ := hn y x
  rw [e3]
  exact h y (hh ▸ hy) x (hw ▸ hx)

/-- Additional invariant of the search loop on an all-walkable 4-directional
grid: `g` never underestimates the true (Manhattan) distance from the start,
every closed cell carries its exact distance and lies on a shortest
start-to-goal route, and every closed cell has an onward neighbor on such a
route that has been discovered with exact distance. -/
structure OInv (sc ec : Nat × Nat) (gr : Grid) (openS closed : List (Nat × Nat)) :
    Prop where
  gLB : ∀ c, c ∈ openS ∨ c ∈ closed → manh sc c ≤ (nodeAt gr c).g
  closedOpt : ∀ c ∈ closed,
    (nodeAt gr c).g = manh sc c ∧ manh sc c + manh c ec = manh sc ec
  succ : ∀ c ∈ closed, ∃ v : Nat × Nat, stepOk false c v = true ∧
    manh sc v = manh sc c + 1 ∧ manh sc v + manh v ec = manh sc ec ∧
    (v ∈ openS ∨ v ∈ closed) ∧ (nodeAt gr v).g = manh sc v

/-- Chasing onward successors from any discovered on-route cell with exact
distance reaches an open on-route cell with exact distance. -/
theorem oinv_chase {sc ec : Nat × Nat} {gr : Grid} {openS closed : List (Nat × Nat)}
    (sinv : SInv sc ec false gr openS closed) (oinv : OInv sc ec gr openS closed) :
    ∀ (n : Nat) (c : Nat × Nat), (c ∈ openS ∨ c ∈ closed) →
      (nodeAt gr c).g = manh sc c → manh sc c + manh c ec = manh sc ec →
      manh sc ec - manh sc c ≤ n →
      ∃ w ∈ openS, (nodeAt gr w).g = manh sc w ∧
        manh sc w + manh w ec = manh sc ec := by
  intro n
  induction n with
  | zero =>
    intro c hmem hg hrect hn
    rcases hmem with h | h
    · exact ⟨c, h, hg, hrect⟩
    · exfalso
      have hcec : c = ec := by
        refine manh_eq_zero ?_
        omega
      subst hcec
      exact sinv.ecNotClosed h
  | succ n ih =>
    intro c hmem hg hrect hn
    rcases hmem with h | h
    · exact ⟨c, h, hg, hrect⟩
    · obtain ⟨v, hv1, hv2, hv3, hv4, hv5⟩ := oinv.succ c h
      refine ih v hv4 hv5 hv3 ?_
      have hvle : manh sc v ≤ manh sc ec := by omega
      omega

/-- Until the goal is closed, the open set contains a cell on a shortest
route carrying its exact distance (so its `f` equals the shortest length). -/
theorem open_witness {sc ec : Nat × Nat} {gr : Grid} {openS closed : List (Nat × Nat)}
    (sinv : SInv sc ec false gr openS closed) (oinv : OInv sc ec gr openS closed) :
    ∃ w ∈ openS, (nodeAt gr w).g = manh sc w ∧
      manh sc w + manh w ec = manh sc ec := by
  refine oinv_chase sinv oinv (manh sc ec) sc sinv.scMem ?_ ?_ ?_
  · rw [sinv.scRoot.2, manh_self]
  · rw [manh_self]
    omega
  · rw [manh_self]
    omega

/-- On an open grid the popped cell always carries its exact distance and
lies on a shortest start-to-goal route. -/
theorem pop_min_opt {sc ec : Nat × Nat} {gr : Grid} {o : Nat × Nat}
    {os closed : List (Nat × Nat)}
    (sinv : SInv sc ec false gr (o :: os) closed)
    (oinv : OInv sc ec gr (o :: os) closed) :
    (nodeAt gr (scanMin gr os o 0 1).1).g = manh sc (scanMin gr os o 0 1).1 ∧
      manh sc (scanMin gr os o 0 1).1 + manh (scanMin gr os o 0 1).1 ec =
        manh sc ec := by
  obtain ⟨w, hwmem, hwg, hwrect⟩ := open_witness sinv oinv
  have smspec := scanMin_spec gr o os
  set u := (scanMin gr os o 0 1).1 with hu
  have humem : u ∈ o :: os := List.get?_mem smspec.1
  have hfw : fval gr w = manh sc ec := by
    unfold fval
    obtain ⟨hh, hf⟩ := sinv.hf w hwmem
    rw [hf, hwg, hwrect]
  obtain ⟨j, hj⟩ := List.mem_iff_getElem?.mp hwmem
  have hj' : (o :: os).get? j = some w := by
    rw [List.get?_eq_getElem?]
    exact hj
  have humin : fval gr u ≤ manh sc ec := by
    rw [← hfw]
    exact smspec.2.1 j w hj'
  have hfu : fval gr u = (nodeAt gr u).g + manh u ec := by
    unfold fval
    exact (sinv.hf u humem).2
  have hglb := oinv.gLB u (Or.inl humem)
  have htri := manh_triangle sc u ec
  unfold fval at humin hfu
  omega

theorem relaxStep_frozen_closed {endNode : Node} {closed : List (Nat × Nat)}
    {current : Nat × Nat} {st : Grid × List (Nat × Nat)} {nb : Node}
    {d : Nat × Nat} (hd : d ∈ closed) :
    nodeAt (relaxStep endNode closed current st nb).1 d = nodeAt st.1 d := by
  by_cases h1 : (nb.x, nb.y) ∈ closed
  · rw [relaxStep_eq_closed h1]
  · have hne : d ≠ (nb.x, nb.y) := by
      intro h
      exact h1 (h ▸ hd)
    by_cases h2 : (nb.x, nb.y) ∈ st.2
    · by_cases h3 : (nodeAt st.1 current).g + 1 ≥ (nodeAt st.1 (nb.x, nb.y)).g
      · rw [relaxStep_eq_skip h1 h2 h3]
      · rw [relaxStep_eq_improve h1 h2 h3]
        exact updateNode_nodes_ne _ _ _ hne
    · rw [relaxStep_eq_push h1 h2]
      exact updateNode_nodes_ne _ _ _ hne

theorem relaxFold_frozen_closed {endNode : Node} {closed : List (Nat × Nat)}
    {current : Nat × Nat} {d : Nat × Nat} (hd : d ∈ closed) :
    ∀ (nbs : List Node) (st : Grid × List (Nat × Nat)),
      nodeAt ((nbs.foldl (relaxStep endNode closed current) st).1) d = nodeAt st.1 d := by
  intro nbs
  induction nbs with
  | nil => intro st; rfl
  | cons nb nbs ih =>
    intro st
    rw [List.foldl_cons, ih]
    exact relaxStep_frozen_closed hd

theorem relaxStep_open_mono {endNode : Node} {closed : List (Nat × Nat)}
    {current : Nat × Nat} {st : Grid × List (Nat × Nat)} {nb : Node}
    {c : Nat × Nat} (hc : c ∈ st.2) : c ∈ (relaxStep endNode closed current st nb).2 := by
  by_cases h1 : (nb.x, nb.y) ∈ closed
  · rw [relaxStep_eq_closed h1]
    exact hc
  · by_cases h2 : (nb.x, nb.y) ∈ st.2
    · by_cases h3 : (nodeAt st.1 current).g + 1 ≥ (nodeAt st.1 (nb.x, nb.y)).g
      · rw [relaxStep_eq_skip h1 h2 h3]
        exact hc
      · rw [relaxStep_eq_improve h1 h2 h3]
        exact hc
    · rw [relaxStep_eq_push h1 h2]
      exact List.mem_append.mpr (Or.inl hc)

theorem relaxFold_open_mono {endNode : Node} {closed : List (Nat × Nat)}
    {current : Nat × Nat} {c : Nat × Nat} :
    ∀ (nbs : List Node) (st : Grid × List (Nat × Nat)), c ∈ st.2 →
      c ∈ (nbs.foldl (relaxStep endNode closed current) st).2 := by
  intro nbs
  induction nbs with
  | nil => intro st hc; exact hc
  | cons nb nbs ih =>
    intro st hc
    rw [List.foldl_cons]
    exact ih _ (relaxStep_open_mono hc)

theorem relaxStep_open_sup {endNode : Node} {closed : List (Nat × Nat)}
    {current : Nat × Nat} {st : Grid × List (Nat × Nat)} {nb : Node}
    {c : Nat × Nat} (hc : c ∈ (relaxStep endNode closed current st nb).2) :
    c ∈ st.2 ∨ c = (nb.x, nb.y) := by
  by_cases h1 : (nb.x, nb.y) ∈ closed
  · rw [relaxStep_eq_closed h1] at hc
    exact Or.inl hc
  · by_cases h2 : (nb.x, nb.y) ∈ st.2
    · by_cases h3 : (nodeAt st.1 current).g + 1 ≥ (nodeAt st.1 (nb.x, nb.y)).g
      · rw [relaxStep_eq_skip h1 h2 h3] at hc
        exact Or.inl hc
      · rw [relaxStep_eq_improve h1 h2 h3] at hc
        exact Or.inl hc
    · rw [relaxStep_eq_push h1 h2] at hc
      rcases List.mem_append.mp hc with h | h
      · exact Or.inl h
      · exact Or.inr (List.mem_singleton.mp h)

theorem relaxStep_nodes_ne {endNode : Node} {closed : List (Nat × Nat)}
    {current : Nat × Nat} {st : Grid × List (Nat × Nat)} {nb : Node}
    {d : Nat × Nat} (hd : d ≠ (nb.x, nb.y)) :
    nodeAt (relaxStep endNode closed current st nb).1 d = nodeAt st.1 d := by
  by_cases h1 : (nb.x, nb.y) ∈ closed
  · rw [relaxStep_eq_closed h1]
  · by_cases h2 : (nb.x, nb.y) ∈ st.2
    · by_cases h3 : (nodeAt st.1 current).g + 1 ≥ (nodeAt st.1 (nb.x, nb.y)).g
      · rw [relaxStep_eq_skip h1 h2 h3]
      · rw [relaxStep_eq_improve h1 h2 h3]
        exact updateNode_nodes_ne _ _ _ hd
    · rw [relaxStep_eq_push h1 h2]
      exact updateNode_nodes_ne _ _ _ hd

/-- The neighbor loop never underestimates distances: every open or closed
cell's `g` stays at least its Manhattan distance from the start. -/
theorem relaxFold_gLB {endNode : Node} {closed : List (Nat × Nat)}
    {current sc : Nat × Nat} (hcur : current ∈ closed) :
    ∀ (nbs : List Node) (st : Grid × List (Nat × Nat)),
      (∀ nb ∈ nbs, stepOk false current (nb.x, nb.y) = true) →
      (∀ c, c ∈ st.2 ∨ c ∈ closed → manh sc c ≤ (nodeAt st.1 c).g) →
      ∀ c, c ∈ (nbs.foldl (relaxStep endNode closed current) st).2 ∨ c ∈ closed →
        manh sc c ≤ (nodeAt (nbs.foldl (relaxStep endNode closed current) st).1 c).g := by
  intro nbs
  induction nbs with
  | nil =>
    intro st _ hglb c hc
    exact hglb c hc
  | cons nb nbs ih =>
    intro st hadj hglb
    rw [List.foldl_cons]
    refine ih _ (fun nb' h => hadj nb' (List.mem_cons_of_mem _ h)) ?_
    intro c hc
    have hstepc : manh sc (nb.x, nb.y) ≤ manh sc current + 1 :=
      manh_adjacent (hadj nb (List.mem_cons_self _ _))
    have hgcur : manh sc current ≤ (nodeAt st.1 current).g := hglb current (Or.inr hcur)
    by_cases hceq : c = (nb.x, nb.y)
    · subst hceq
      by_cases h1 : (nb.x, nb.y) ∈ closed
      · rw [relaxStep_eq_closed h1]
        exact hglb _ (Or.inr h1)
      · by_cases h2 : (nb.x, nb.y) ∈ st.2
        · by_cases h3 : (nodeAt st.1 current).g + 1 ≥ (nodeAt st.1 (nb.x, nb.y)).g
          · rw [relaxStep_eq_skip h1 h2 h3]
            exact hglb _ (Or.inl h2)
          · rw [relaxStep_eq_improve h1 h2 h3]
            show manh sc (nb.x, nb.y) ≤
              (nodeAt (updateNode st.1 (nb.x, nb.y) _) (nb.x, nb.y)).g
            rw [updateNode_nodes_self, relaxFn_g]
            omega
        · rw [relaxStep_eq_push h1 h2]
          show manh sc (nb.x, nb.y) ≤
            (nodeAt (updateNode st.1 (nb.x, nb.y) _) (nb.x, nb.y)).g
          rw [updateNode_nodes_self, relaxFn_g]
          omega
    · rw [relaxStep_nodes_ne hceq]
      refine hglb c ?_
      rcases hc with h | h
      · rcases relaxStep_open_sup h with h' | h'
        · exact Or.inl h'
        · exact absurd h' hceq
      · exact Or.inr h

/-- Once a non-closed cell is in the open set with its exact distance, the
rest of the neighbor loop keeps it there with that distance. -/
theorem relaxFold_keep {endNode : Node} {closed : List (Nat × Nat)}
    {current sc w : Nat × Nat} (hcur : current ∈ closed) (hwncl : w ∉ closed) :
    ∀ (nbs : List Node) (st : Grid × List (Nat × Nat)),
      (nodeAt st.1 current).g = manh sc current →
      (∀ nb ∈ nbs, stepOk false current (nb.x, nb.y) = true) →
      w ∈ st.2 → (nodeAt st.1 w).g = manh sc w →
      w ∈ (nbs.foldl (relaxStep endNode closed current) st).2 ∧
        (nodeAt (nbs.foldl (relaxStep endNode closed current) st).1 w).g = manh sc w := by
  intro nbs
  induction nbs with
  | nil =>
    intro st _ _ hw hg
    exact ⟨hw, hg⟩
  | cons nb nbs ih =>
    intro st hcurg hadj hw hg
    rw [List.foldl_cons]
    have hcur' : (nodeAt (relaxStep endNode closed current st nb).1 current).g =
        manh sc current := by
      rw [relaxStep_frozen_closed hcur]
      exact hcurg
    by_cases hceq : w = (nb.x, nb.y)
    · have hmle : manh sc w ≤ manh sc current + 1 := by
        rw [hceq]
        exact manh_adjacent (hadj nb (List.mem_cons_self _ _))
      have h1 : (nb.x, nb.y) ∉ closed := by
        rw [← hceq]
        exact hwncl
      have h2 : (nb.x, nb.y) ∈ st.2 := by
        rw [← hceq]
        exact hw
      have h3 : (nodeAt st.1 current).g + 1 ≥ (nodeAt st.1 (nb.x, nb.y)).g := by
        rw [← hceq, hg, hcurg]
        omega
      rw [relaxStep_eq_skip h1 h2 h3]
      exact ih _ hcurg (fun nb' h => hadj nb' (List.mem_cons_of_mem _ h)) hw hg
    · refine ih _ hcur' (fun nb' h => hadj nb' (List.mem_cons_of_mem _ h))
        (relaxStep_open_mono hw) ?_
      rw [relaxStep_nodes_ne hceq]
      exact hg

/-- If some neighbor in the loop names the cell `v`, then after the loop `v`
is discovered (open) with its exact distance. -/
theorem relaxFold_hit {endNode : Node} {closed : List (Nat × Nat)}
    {current sc v : Nat × Nat} (hcur : current ∈ closed) (hvncl : v ∉ closed)
    (hvadj : manh sc v = manh sc current + 1) :
    ∀ (nbs : List Node) (st : Grid × List (Nat × Nat)),
      (nodeAt st.1 current).g = manh sc current →
      (∀ nb ∈ nbs, stepOk false current (nb.x, nb.y) = true) →
      (∃ nb ∈ nbs, (nb.x, nb.y) = v) →
      (v ∈ st.2 → manh sc v ≤ (nodeAt st.1 v).g) →
      v ∈ (nbs.foldl (relaxStep endNode closed current) st).2 ∧
        (nodeAt (nbs.foldl (relaxStep endNode closed current) st).1 v).g = manh sc v := by
  intro nbs
  induction nbs with
  | nil =>
    intro st _ _ hex _
    obtain ⟨nb, hnb, _⟩ := hex
    exact absurd hnb (List.not_mem_nil nb)
  | cons nb nbs ih =>
    intro st hcurg hadj hex hglb
    rw [List.foldl_cons]
    have hadj' : ∀ nb' ∈ nbs, stepOk false current (nb'.x, nb'.y) = true :=
      fun nb' h => hadj nb' (List.mem_cons_of_mem _ h)
    by_cases hceq : (nb.x, nb.y) = v
    · have h1 : (nb.x, nb.y) ∉ closed := by
        rw [hceq]
        exact hvncl
      by_cases h2 : (nb.x, nb.y) ∈ st.2
      · by_cases h3 : (nodeAt st.1 current).g + 1 ≥ (nodeAt st.1 (nb.x, nb.y)).g
        · rw [relaxStep_eq_skip h1 h2 h3]
          have hgv : (nodeAt st.1 v).g = manh sc v := by
            have hle := hglb (hceq ▸ h2)
            have h3' := h3
            rw [hceq, hcurg] at h3'
            omega
          exact relaxFold_keep hcur hvncl nbs st hcurg hadj' (hceq ▸ h2) hgv
        · rw [relaxStep_eq_improve h1 h2 h3]
          have hwmem : v ∈ (updateNode st.1 (nb.x, nb.y)
              (relaxFn endNode current ((nodeAt st.1 current).g + 1)), st.2).2 :=
            hceq ▸ h2
          refine relaxFold_keep hcur hvncl nbs _ ?_ hadj' hwmem ?_
          · show (nodeAt (updateNode st.1 (nb.x, nb.y) _) current).g = manh sc current
            rw [updateNode_nodes_ne _ _ _ (by
              intro h
              exact h1 (h ▸ hcur))]
            exact hcurg
          · show (nodeAt (updateNode st.1 (nb.x, nb.y) _) v).g = manh sc v
            rw [← hceq, updateNode_nodes_self, relaxFn_g, hcurg, hceq]
            exact hvadj.symm
      · rw [relaxStep_eq_push h1 h2]
        have hwmem : v ∈ (updateNode st.1 (nb.x, nb.y)
            (relaxFn endNode current ((nodeAt st.1 current).g + 1)),
            st.2 ++ [(nb.x, nb.y)]).2 := by
          show v ∈ st.2 ++ [(nb.x, nb.y)]
          rw [hceq]
          exact List.mem_append.mpr (Or.inr (List.mem_singleton.mpr rfl))
        refine relaxFold_keep hcur hvncl nbs _ ?_ hadj' hwmem ?_
        · show (nodeAt (updateNode st.1 (nb.x, nb.y) _) current).g = manh sc current
          rw [updateNode_nodes_ne _ _ _ (by
            intro h
            exact h1 (h ▸ hcur))]
          exact hcurg
        · show (nodeAt (updateNode st.1 (nb.x, nb.y) _) v).g = manh sc v
          rw [← hceq, updateNode_nodes_self, relaxFn_g, hcurg]
          rw [hceq]
          exact hvadj.symm
    · have hex' : ∃ nb' ∈ nbs, (nb'.x, nb'.y) = v := by
        obtain ⟨nb', hnb', heq⟩ := hex
        rcases List.mem_cons.mp hnb' with h' | h'
        · subst h'
          exact absurd heq hceq
        · exact ⟨nb', h', heq⟩
      have hvne : v ≠ (nb.x, nb.y) := fun h => hceq h.symm
      refine ih _ ?_ hadj' hex' ?_
      · rw [relaxStep_frozen_closed hcur]
        exact hcurg
      · intro hv
        rw [relaxStep_nodes_ne hvne]
        rcases relaxStep_open_sup hv with h' | h'
        · exact hglb h'
        · exact absurd h' hvne

/-- Any in-grid cell one step from `current` appears among the neighbors
returned for `current`'s node. -/
theorem step_mem_getNeighbors {gr : Grid} (hwf : gr.WF) {current v : Nat × Nat}
    (hx : (nodeAt gr current).x = current.1) (hy : (nodeAt gr current).y = current.2)
    (hstep : stepOk false current v = true) (hin : InGrid gr v) :
    ∃ nb ∈ gr.getNeighbors (nodeAt gr current) false, (nb.x, nb.y) = v := by
  unfold stepOk at hstep
  rw [List.any_eq_true] at hstep
  obtain ⟨d, hd, hdeq⟩ := hstep
  rw [Bool.and_eq_true, beq_iff_eq, beq_iff_eq] at hdeq
  refine ⟨gr.nodes v.2 v.1, ?_, ?_⟩
  · rw [mem_getNeighbors_iff]
    refine ⟨d, hd, ?_⟩
    rw [hx, hy, hdeq.1, hdeq.2]
    rw [getNode_some_iff]
    refine ⟨inGrid_isWalkable hin, ?_⟩
    rw [Int.toNat_natCast, Int.toNat_natCast]
  · obtain ⟨h1, h2, _⟩ := hin
    obtain ⟨e1, e2⟩ := hwf v.2 h2 v.1 h1
    rw [e1, e2]

theorem mem_cons_erase {α : Type} {l : List α}
    {i : Nat} {a : α} (hget : l.get? i = some a) {v : α} (hv : v ∈ l) :
    v = a ∨ v ∈ l.eraseIdx i := by
  obtain ⟨j, hj⟩ := List.mem_iff_getElem?.mp hv
  by_cases hij : j = i
  · subst hij
    left
    rw [List.get?_eq_getElem?] at hget
    rw [hget] at hj
    exact (Option.some.injEq _ _ ▸ hj).symm
  · right
    exact (List.mem_eraseIdx_iff_getElem?).mpr ⟨j, hij, hj⟩

/-- The non-returning loop step preserves the open-grid invariant. -/
theorem astarStep_next_OInv {sc : Nat × Nat} {endNode : Node}
    {gr : Grid} {o : Nat × Nat} {os closed : List (Nat × Nat)}
    (sinv : SInv sc (endNode.x, endNode.y) false gr (o :: os) closed)
    (oinv : OInv sc (endNode.x, endNode.y) gr (o :: os) closed)
    (hopen : OpenGrid gr)
    (hecW : endNode.x < gr.width) (hecH : endNode.y < gr.height)
    {gr2 : Grid} {open2 closed2 : List (Nat × Nat)}
    (h : astarStep (endNode.x, endNode.y) endNode false gr o os closed =
      StepResult.next gr2 open2 closed2) :
    OInv sc (endNode.x, endNode.y) gr2 open2 closed2 := by
  have smspec := scanMin_spec gr o os
  have hpop := pop_min_opt sinv oinv
  set ec : Nat × Nat := (endNode.x, endNode.y) with hec
  set u := (scanMin gr os o 0 1).1 with hu
  unfold astarStep at h
  by_cases hc : (scanMin gr os o 0 1).1 = ec
  · simp only [hc, if_true] at h
    exact StepResult.noConfusion h
  · simp only [hc, if_false] at h
    cases h
    have humem : u ∈ o :: os := List.get?_mem smspec.1
    have hucl : u ∉ closed := sinv.disj u humem
    have huIn : InGrid gr u := sinv.openIn u humem
    have hcur1 : u ∈ closed ++ [u] :=
      List.mem_append.mpr (Or.inr (List.mem_singleton.mpr rfl))
    have hsubl := List.eraseIdx_sublist (o :: os) (scanMin gr os o 0 1).2
    have hufields : (nodeAt gr u).x = u.1 ∧ (nodeAt gr u).y = u.2 :=
      sinv.wf u.2 huIn.2.1 u.1 huIn.1
    have hnbs : ∀ nb ∈ gr.getNeighbors (nodeAt gr u) false,
        InGrid gr (nb.x, nb.y) ∧ stepOk false u (nb.x, nb.y) = true :=
      fun nb hnb => mem_getNeighbors_step sinv.wf hufields.1 hufields.2 hnb
    have hmidglb : ∀ c, c ∈ (o :: os).eraseIdx (scanMin gr os o 0 1).2 ∨
        c ∈ closed ++ [u] → manh sc c ≤ (nodeAt gr c).g := by
      intro c hcm
      refine oinv.gLB c ?_
      rcases hcm with h' | h'
      · exact Or.inl (hsubl.subset h')
      · rcases List.mem_append.mp h' with h'' | h''
        · exact Or.inr h''
        · rw [List.mem_singleton] at h''
          subst h''
          exact Or.inl humem
    have hfrozen : ∀ d ∈ closed ++ [u],
        nodeAt ((gr.getNeighbors (nodeAt gr u) false).foldl
          (relaxStep endNode (closed ++ [u]) u)
          (gr, (o :: os).eraseIdx (scanMin gr os o 0 1).2)).1 d = nodeAt gr d :=
      fun d hd => relaxFold_frozen_closed hd _ _
    refine ⟨?_, ?_, ?_⟩
    · exact relaxFold_gLB hcur1 _ _ (fun nb hnb => (hnbs nb hnb).2) hmidglb
    · intro c hcm
      rw [hfrozen c hcm]
      rcases List.mem_append.mp hcm with h' | h'
      · exact oinv.closedOpt c h'
      · rw [List.mem_singleton] at h'
        subst h'
        exact hpop
    · intro c hcm
      rcases List.mem_append.mp hcm with hcold | hcnew
      · -- old closed cell: reuse its recorded successor
        obtain ⟨v, hv1, hv2, hv3, hv4, hv5⟩ := oinv.succ c hcold
        by_cases hvcl : v ∈ closed ++ [u]
        · refine ⟨v, hv1, hv2, hv3, Or.inr hvcl, ?_⟩
          rw [hfrozen v hvcl]
          exact hv5
        · have hvopen1 : v ∈ (o :: os).eraseIdx (scanMin gr os o 0 1).2 := by
            rcases hv4 with h' | h'
            · rcases mem_cons_erase smspec.1 h' with h'' | h''
              · exfalso
                exact hvcl (h'' ▸ hcur1)
              · exact h''
            · exfalso
              exact hvcl (List.mem_append.mpr (Or.inl h'))
          obtain ⟨hvmem, hvg⟩ := relaxFold_keep hcur1 hvcl
            (gr.getNeighbors (nodeAt gr u) false)
            (gr, (o :: os).eraseIdx (scanMin gr os o 0 1).2)
            hpop.1 (fun nb hnb => (hnbs nb hnb).2) hvopen1 hv5
          exact ⟨v, hv1, hv2, hv3, Or.inl hvmem, hvg⟩
      · -- the newly closed popped cell: step toward the goal
        rw [List.mem_singleton] at hcnew
        subst hcnew
        obtain ⟨v, hv1, hv2, hv3, hvW, hvH⟩ :=
          step_toward huIn.1 huIn.2.1 hecW hecH hpop.2 hc
        have hvIn : InGrid gr v := by
          refine ⟨hvW, hvH, ?_⟩
          exact hopen v.2 hvH v.1 hvW
        by_cases hvcl : v ∈ closed ++ [u]
        · refine ⟨v, hv1, hv2, hv3, Or.inr hvcl, ?_⟩
          rw [hfrozen v hvcl]
          have hvne : v ≠ u := by
            intro heq
            rw [heq] at hv2
            omega
          rcases List.mem_append.mp hvcl with h' | h'
          · exact (oinv.closedOpt v h').1
          · rw [List.mem_singleton] at h'
            exact absurd h' hvne
        · obtain ⟨hvmem, hvg⟩ := relaxFold_hit hcur1 hvcl hv2
            (gr.getNeighbors (nodeAt gr u) false)
            (gr, (o :: os).eraseIdx (scanMin gr os o 0 1).2)
            hpop.1 (fun nb hnb => (hnbs nb hnb).2)
            (step_mem_getNeighbors sinv.wf hufields.1 hufields.2 hv1 hvIn)
            (fun hvo => hmidglb v (Or.inl hvo))
          exact ⟨v, hv1, hv2, hv3, Or.inl hvmem, hvg⟩

/-- On an open grid with 4-directional movement the loop returns a path of
length exactly the Manhattan distance plus one. -/
theorem astarLoop_opt {sc : Nat × Nat} {endNode : Node} :
    ∀ (fuel : Nat) (gr : Grid) (openS closed : List (Nat × Nat)),
      SInv sc (endNode.x, endNode.y) false gr openS closed →
      OInv sc (endNode.x, endNode.y) gr openS closed →
      OpenGrid gr → endNode.x < gr.width → endNode.y < gr.height →
      gr.width * gr.height + 1 ≤ fuel + closed.length →
      ∃ p gr2, astarLoop (endNode.x, endNode.y) endNode false fuel gr openS closed =
        (some p, gr2) ∧ p.length = manh sc (endNode.x, endNode.y) + 1 := by
  intro fuel
  induction fuel with
  | zero =>
    intro gr openS closed sinv _ _ _ _ hle
    exfalso
    have := closed_card_bound sinv.closedNodup sinv.closedIn
    omega
  | succ fuel ih =>
    intro gr openS closed sinv oinv hopen hecW hecH hle
    match openS with
    | [] =>
      exfalso
      obtain ⟨w, hw, _⟩ := open_witness sinv oinv
      exact List.not_mem_nil w hw
    | o :: os =>
      cases hstep : astarStep (endNode.x, endNode.y) endNode false gr o os closed with
      | done pp gr' =>
        obtain ⟨hgr, hecmem, hsel, hpp⟩ := astarStep_done_spec hstep
        have hpop := pop_min_opt sinv oinv
        have hgec : (nodeAt gr (endNode.x, endNode.y)).g =
            manh sc (endNode.x, endNode.y) := by
          rw [← hsel]
          exact hpop.1.trans (by rw [hsel])
        have hgbound : (nodeAt gr (endNode.x, endNode.y)).g <
            gr.width * gr.height + 1 := by
          have h1 := sinv.gBound (endNode.x, endNode.y) (Or.inl hecmem)
          have h2 := closed_card_bound sinv.closedNodup sinv.closedIn
          omega
        obtain ⟨l, heq, _, _, hlen, _, _⟩ :=
          reconstruct_spec sinv (nodeAt gr (endNode.x, endNode.y)).g
            (endNode.x, endNode.y) (Or.inl hecmem) rfl
            (gr.width * gr.height + 1) [] hgbound
        rw [List.append_nil] at heq
        refine ⟨pp, gr', ?_, ?_⟩
        · rw [astarLoop_succ_cons, hstep]
        · rw [hpp, heq, hlen, hgec]
      | next gr' open2 closed2 =>
        obtain ⟨sinv2, hcl2⟩ := astarStep_next_SInv sinv hstep
        have oinv2 := astarStep_next_OInv sinv oinv hopen hecW hecH hstep
        have hs := astarStep_next_scratch hstep
        obtain ⟨p, gr3, hp, hplen⟩ := ih gr' open2 closed2 sinv2 oinv2
          (openGrid_of_scratchOnly hs hopen)
          (by rw [hs.1]; exact hecW) (by rw [hs.2.1]; exact hecH)
          (by rw [hs.1, hs.2.1, hcl2, List.length_append, List.length_singleton]; omega)
        refine ⟨p, gr3, ?_, hplen⟩
        rw [astarLoop_succ_cons, hstep]
        exact hp

/-- C1: on a grid whose cells are all walkable, with 4-directional movement
and in-bounds endpoints, the returned path's edge count (length minus one)
equals the Manhattan distance between start and end. -/
theorem claim1_open_grid_manhattan (gr0 : Grid) (sx sy ex ey : Int)
    (hwf : gr0.WF) (hopen : OpenGrid gr0)
    (hsb : gr0.isInBounds sx sy = true) (heb : gr0.isInBounds ex ey = true) :
    (findPath gr0 sx sy ex ey false).length =
      ((sx - ex).natAbs + (sy - ey).natAbs) + 1 := by
  have hsb' : 0 ≤ sx ∧ sx < (gr0.width : Int) ∧ 0 ≤ sy ∧ sy < (gr0.height : Int) := by
    unfold Grid.isInBounds at hsb
    simp only [Bool.and_eq_true, decide_eq_true_eq] at hsb
    exact ⟨hsb.1.1.1, hsb.1.1.2, hsb.1.2, hsb.2⟩
  have heb' : 0 ≤ ex ∧ ex < (gr0.width : Int) ∧ 0 ≤ ey ∧ ey < (gr0.height : Int) := by
    unfold Grid.isInBounds at heb
    simp only [Bool.and_eq_true, decide_eq_true_eq] at heb
    exact ⟨heb.1.1.1, heb.1.1.2, heb.1.2, heb.2⟩
  have hww : gr0.isWalkable sx sy = true := by
    unfold Grid.isWalkable
    rw [hsb, Bool.true_and]
    exact hopen sy.toNat (by omega) sx.toNat (by omega)
  have hwe : gr0.isWalkable ex ey = true := by
    unfold Grid.isWalkable
    rw [heb, Bool.true_and]
    exact hopen ey.toNat (by omega) ex.toNat (by omega)
  have hs : (gr0.reset).getNode sx sy = some ((gr0.reset).nodes sy.toNat sx.toNat) := by
    rw [getNode_some_iff]
    exact ⟨by rw [isWalkable_reset]; exact hww, rfl⟩
  have he : (gr0.reset).getNode ex ey = some ((gr0.reset).nodes ey.toNat ex.toNat) := by
    rw [getNode_some_iff]
    exact ⟨by rw [isWalkable_reset]; exact hwe, rfl⟩
  have hwfr : (gr0.reset).WF := wf_of_scratchOnly (scratchOnly_reset gr0) hwf
  set startNode := (gr0.reset).nodes sy.toNat sx.toNat with hsn
  set endNode := (gr0.reset).nodes ey.toNat ex.toNat with hen
  obtain ⟨sfx, sfy⟩ := getNode_fields hwfr hs
  obtain ⟨efx, efy⟩ := getNode_fields hwfr he
  have sinv0 := initial_SInv gr0 hwf sx sy ex ey false hs he
  set gr1 := updateNode gr0.reset (startNode.x, startNode.y)
    (fun n => { n with g := 0, h := heuristic startNode endNode,
                       f := heuristic startNode endNode }) with hgr1
  have hscr1 : ScratchOnly gr0 gr1 :=
    scratchOnly_trans (scratchOnly_reset gr0)
      (scratchOnly_updateNode _ _ _ (fun n => ⟨rfl, rfl, rfl⟩))
  have oinv0 : OInv (startNode.x, startNode.y) (endNode.x, endNode.y) gr1
      [(startNode.x, startNode.y)] [] := by
    refine ⟨?_, ?_, ?_⟩
    · intro c hc
      rcases hc with h' | h'
      · rw [List.mem_singleton] at h'
        subst h'
        rw [manh_self]
        exact Nat.zero_le _
      · exact absurd h' (List.not_mem_nil c)
    · intro c hc
      exact absurd hc (List.not_mem_nil c)
    · intro c hc
      exact absurd hc (List.not_mem_nil c)
  obtain ⟨p, gr2, hp, hplen⟩ := astarLoop_opt
    ((gr0.reset).width * (gr0.reset).height + 1) gr1
    [(startNode.x, startNode.y)] [] sinv0 oinv0
    (openGrid_of_scratchOnly hscr1 hopen)
    (by rw [efx]; show ex.toNat < gr0.width; omega)
    (by rw [efy]; show ey.toNat < gr0.height; omega)
    (Nat.le_refl _)
  have hfp : findPath gr0 sx sy ex ey false = p := by
    unfold findPath findPathRun
    simp only [hs, he]
    rw [hp]
  rw [hfp, hplen, sfx, sfy, efx, efy]
  unfold manh
  have h1 : ((sx.toNat : Int) - (ex.toNat : Int)).natAbs = (sx - ex).natAbs := by
    rw [Int.toNat_of_nonneg hsb'.1, Int.toNat_of_nonneg heb'.1]
  have h2 : ((sy.toNat : Int) - (ey.toNat : Int)).natAbs = (sy - ey).natAbs := by
    rw [Int.toNat_of_nonneg hsb'.2.2.1, Int.toNat_of_nonneg heb'.2.2.1]
  rw [h1, h2]

theorem claim1_open_grid_manhattan_witness :
    (Grid.make 3 3).WF ∧ OpenGrid (Grid.make 3 3) ∧
      (Grid.make 3 3).isInBounds 0 1 = true ∧ (Grid.make 3 3).isInBounds 2 0 = true ∧
      (findPath (Grid.make 3 3) 0 1 2 0 false).length =
        (((0 : Int) - 2).natAbs + ((1 : Int) - 0).natAbs) + 1 :=
  ⟨by decide, by decide, by decide, by decide,
    claim1_open_grid_manhattan (Grid.make 3 3) 0 1 2 0
      (by decide) (by decide) (by decide) (by decide)⟩

/-- Small concrete grid used by the witnesses. -/
def gridA : Grid := Grid.make 2 2

/-- Master soundness statement at the `findPath` interface: the result is
empty, or it is a contiguous in-grid route from the start coordinate to the
end coordinate (in particular both endpoints are in bounds and walkable). -/
theorem findPath_sound (gr0 : Grid) (hwf : gr0.WF) (sx sy ex ey : Int)
    (diagonal : Bool) :
    findPath gr0 sx sy ex ey diagonal = [] ∨
    (gr0.isWalkable sx sy = true ∧ gr0.isWalkable ex ey = true ∧
      (findPath gr0 sx sy ex ey diagonal).head? = some (sx.toNat, sy.toNat) ∧
      (findPath gr0 sx sy ex ey diagonal).getLast? = some (ex.toNat, ey.toNat) ∧
      List.Chain' (fun a b => stepOk diagonal a b = true)
        (findPath gr0 sx sy ex ey diagonal) ∧
      ∀ a ∈ findPath gr0 sx sy ex ey diagonal, InGrid gr0 a) := by
  unfold findPath findPathRun
  cases hs : (gr0.reset).getNode sx sy with
  | none =>
    cases he : (gr0.reset).getNode ex ey <;> simp [hs, he]
  | some startNode =>
    cases he : (gr0.reset).getNode ex ey with
    | none => simp [hs, he]
    | some endNode =>
      simp only [hs, he]
      have hwfr : (gr0.reset).WF := wf_of_scratchOnly (scratchOnly_reset gr0) hwf
      have inv0 := initial_SInv gr0 hwf sx sy ex ey diagonal hs he
      obtain ⟨p, gr2, hp⟩ := astarLoop_terminates
        ((gr0.reset).width * (gr0.reset).height + 1) _ _ [] inv0 (Nat.le_refl _)
      rw [hp]
      simp only []
      by_cases hpnil : p = []
      · left
        exact hpnil
      · rcases astarLoop_sound _ _ _ _ inv0 p gr2 hp with h | ⟨hhead, hlast, hchain, hmem⟩
        · exact absurd h hpnil
        · right
          obtain ⟨sfx, sfy⟩ := getNode_fields hwfr hs
          obtain ⟨efx, efy⟩ := getNode_fields hwfr he
          have hsw : gr0.isWalkable sx sy = true := by
            rw [← isWalkable_reset]
            exact ((getNode_some_iff _ _ _ _).mp hs).1
          have hew : gr0.isWalkable ex ey = true := by
            rw [← isWalkable_reset]
            exact ((getNode_some_iff _ _ _ _).mp he).1
          have hscratch : ScratchOnly gr0 gr2 := by
            have h1 : ScratchOnly gr0 _ :=
              scratchOnly_trans (scratchOnly_reset gr0)
                (scratchOnly_updateNode gr0.reset (startNode.x, startNode.y)
                  (fun n => { n with g := 0, h := heuristic startNode endNode,
                                     f := heuristic startNode endNode })
                  (fun n => ⟨rfl, rfl, rfl⟩))
            have h2 := astarLoop_scratch (endNode.x, endNode.y) endNode diagonal
              ((gr0.reset).width * (gr0.reset).height + 1)
              (updateNode gr0.reset (startNode.x, startNode.y)
                (fun n => { n with g := 0, h := heuristic startNode endNode,
                                   f := heuristic startNode endNode }))
              [(startNode.x, startNode.y)] []
            rw [hp] at h2
            exact scratchOnly_trans h1 h2
          refine ⟨hsw, hew, ?_, ?_, hchain, ?_⟩
          · rw [hhead, sfx, sfy]
          · rw [hlast, efx, efy]
          · intro a ha
            exact inGrid_of_scratchOnly (scratchOnly_symm hscratch) (hmem a ha)

/-- C2: `findPath` signals no failure distinctly: a non-empty result implies
both endpoints were in bounds and walkable and the goal reachable, so
out-of-bounds, blocked, or unreachable queries all return the empty path
(the embedding is a total function, so no exception is possible). -/
theorem claim2_failure_empty (gr0 : Grid) (sx sy ex ey : Int) (diagonal : Bool)
    (hwf : gr0.WF) (hne : findPath gr0 sx sy ex ey diagonal ≠ []) :
    gr0.isWalkable sx sy = true ∧ gr0.isWalkable ex ey = true ∧
      Reachable gr0 diagonal (sx.toNat, sy.toNat) (ex.toNat, ey.toNat) := by
  rcases findPath_sound gr0 hwf sx sy ex ey diagonal with h | ⟨h1, h2, h3, h4, h5, h6⟩
  · exact absurd h hne
  · refine ⟨h1, h2, findPath gr0 sx sy ex ey diagonal, h3, h4, h5, ?_⟩
    intro c hc
    exact inGrid_isWalkable (h6 c hc)

theorem claim2_failure_empty_witness :
    gridA.WF ∧ findPath gridA 0 0 1 1 false ≠ [] ∧
      (gridA.isWalkable 0 0 = true ∧ gridA.isWalkable 1 1 = true ∧
        Reachable gridA false (0, 0) (1, 1)) :=
  ⟨by decide, by decide, claim2_failure_empty gridA 0 0 1 1 false (by decide) (by decide)⟩

/-- C4: every returned path is spatially contiguous: consecutive coordinates
differ by exactly one permitted direction step (4-directional, or
8-directional when diagonal movement is enabled). -/
theorem claim4_contiguous (gr0 : Grid) (sx sy ex ey : Int) (diagonal : Bool)
    (hwf : gr0.WF) :
    List.Chain' (fun a b => stepOk diagonal a b = true)
      (findPath gr0 sx sy ex ey diagonal) := by
  rcases findPath_sound gr0 hwf sx sy ex ey diagonal with h | ⟨_, _, _, _, h5, _⟩
  · rw [h]
    exact List.chain'_nil
  · exact h5

theorem claim4_contiguous_witness :
    gridA.WF ∧ List.Chain' (fun a b => stepOk true a b = true)
      (findPath gridA 0 0 1 1 true) :=
  ⟨by decide, claim4_contiguous gridA 0 0 1 1 true (by decide)⟩

/-- C5: every coordinate of a returned path names an in-bounds cell whose
walkability flag (as it was when `findPath` was called) is true. -/
theorem claim5_walkable (gr0 : Grid) (sx sy ex ey : Int) (diagonal : Bool)
    (hwf : gr0.WF) :
    ∀ c ∈ findPath gr0 sx sy ex ey diagonal,
      c.1 < gr0.width ∧ c.2 < gr0.height ∧ (gr0.nodes c.2 c.1).walkable = true := by
  rcases findPath_sound gr0 hwf sx sy ex ey diagonal with h | ⟨_, _, _, _, _, h6⟩
  · rw [h]
    intro c hc
    exact absurd hc (List.not_mem_nil c)
  · exact h6


def wStart : Node := (Grid.make 2 2).reset.nodes 0 0

def wEnd : Node := (Grid.make 2 2).reset.nodes 1 1

theorem claim9_terminates_witness :
    (astarLoop (wEnd.x, wEnd.y) wEnd false 5
      (updateNode (Grid.make 2 2).reset (wStart.x, wStart.y)
        (fun n => { n with g := 0, h := heuristic wStart wEnd,
                           f := heuristic wStart wEnd }))
      [(wStart.x, wStart.y)] []).1.isSome = true := by
  obtain ⟨p, gr2, hp⟩ := @claim9_terminates (Grid.make 2 2) 0 0 1 1 false
    (by decide) wStart wEnd (by decide) (by decide) 5 (by decide)
  rw [hp]
  rfl

theorem claim5_walkable_witness :
    gridA.WF ∧ (1, 0) ∈ findPath gridA 0 0 1 1 false ∧
      (1 < gridA.width ∧ 0 < gridA.height ∧ (gridA.nodes 0 1).walkable = true) :=
  ⟨by decide, by decide,
    claim5_walkable gridA 0 0 1 1 false (by decide) (1, 0) (by decide)⟩

/-- C3: searching from a walkable in-bounds cell to itself returns exactly
the one-element path, and the loop returns on its very first iteration
without expanding any neighbor: every cell other than the start keeps its
freshly reset record. -/
theorem claim3_start_eq_end (gr0 : Grid) (x y : Int) (diagonal : Bool)
    (hwf : gr0.WF) (hw : gr0.isWalkable x y = true) :
    findPath gr0 x y x y diagonal = [(x.toNat, y.toNat)] ∧
    ∀ c : Nat × Nat, c ≠ (x.toNat, y.toNat) →
      nodeAt (findPathRun gr0 x y x y diagonal).2 c = nodeAt gr0.reset c := by
  have hwfr : (gr0.reset).WF := wf_of_scratchOnly (scratchOnly_reset gr0) hwf
  have hsw : (gr0.reset).isWalkable x y = true := by
    rw [isWalkable_reset]
    exact hw
  have hs : (gr0.reset).getNode x y =
      some ((gr0.reset).nodes y.toNat x.toNat) := by
    unfold Grid.getNode
    rw [hsw]
    simp
  obtain ⟨sfx, sfy⟩ := getNode_fields hwfr hs
  obtain ⟨hx0, hxw, hy0, hyh, hwk⟩ :=
    isWalkable_bounds _ _ _ ((getNode_some_iff _ _ _ _).mp hs).1
  set startNode := (gr0.reset).nodes y.toNat x.toNat with hsn
  set sc : Nat × Nat := (startNode.x, startNode.y) with hscdef
  set initFn : Node → Node := fun n =>
    { n with g := 0, h := heuristic startNode startNode,
             f := heuristic startNode startNode } with hinitFn
  set gr1 := updateNode gr0.reset sc initFn with hgr1
  have hparent : (nodeAt gr1 sc).parent = none := by
    rw [hgr1, updateNode_nodes_self]
    show (nodeAt gr0.reset sc).parent = none
    unfold nodeAt
    show ((gr0.reset).nodes startNode.y startNode.x).parent = none
    have hxw' : x < (gr0.width : Int) := hxw
    have hyh' : y < (gr0.height : Int) := hyh
    rw [sfx, sfy, reset_node gr0 y.toNat x.toNat ⟨by omega, by omega⟩]
  have hloop : astarLoop sc startNode diagonal
      ((gr0.reset).width * (gr0.reset).height + 1) gr1 [sc] [] =
      (some [sc], gr1) := by
    rw [astarLoop_succ_cons]
    have hstep : astarStep sc startNode diagonal gr1 sc [] [] =
        StepResult.done [sc] gr1 := by
      unfold astarStep
      have hsel : scanMin gr1 [] sc 0 1 = (sc, 0) := rfl
      rw [hsel]
      simp only [if_true]
      have hrec : reconstructPath (gr1.width * gr1.height + 1) gr1 (some sc) [] =
          [sc] := by
        show reconstructPath (gr1.width * gr1.height + 1) gr1 (some sc) [] = [sc]
        have : gr1.width * gr1.height + 1 = (gr1.width * gr1.height) + 1 := rfl
        rw [this]
        unfold reconstructPath
        rw [hparent, reconstructPath_none]
      rw [hrec]
    rw [hstep]
  constructor
  · show (findPathRun gr0 x y x y diagonal).1 = [(x.toNat, y.toNat)]
    unfold findPathRun
    simp only [hs]
    rw [hloop]
    show [sc] = [(x.toNat, y.toNat)]
    rw [hscdef, sfx, sfy]
  · intro c hc
    have hrun : (findPathRun gr0 x y x y diagonal).2 = gr1 := by
      unfold findPathRun
      simp only [hs]
      rw [hloop]
    rw [hrun, hgr1]
    refine updateNode_nodes_ne _ _ _ ?_
    rw [hscdef, sfx, sfy]
    exact hc

theorem claim3_start_eq_end_witness :
    gridA.WF ∧ gridA.isWalkable 1 0 = true ∧
      findPath gridA 1 0 1 0 true = [(1, 0)] :=
  ⟨by decide, by decide,
    (claim3_start_eq_end gridA 1 0 true (by decide) (by decide)).1⟩

theorem claim7_neighbors_witness :
    gridA.WF ∧
      gridA.getNeighbors (gridA.nodes 0 0) false =
        (directions false).filterMap
          (fun d => gridA.getNode (((gridA.nodes 0 0).x : Int) + d.1)
            (((gridA.nodes 0 0).y : Int) + d.2)) :=
  ⟨by decide, (claim7_neighbors gridA (gridA.nodes 0 0) false (by decide)).1⟩

theorem claim8_pop_min_witness :
    (scanMin gridA [(1, 0)] (0, 0) 0 1).1 ≠ (1, 1) ∧
      ∃ gr2 open2,
        astarStep (1, 1) (gridA.nodes 1 1) false gridA (0, 0) [(1, 0)] [] =
          StepResult.next gr2 open2 ([] ++ [(scanMin gridA [(1, 0)] (0, 0) 0 1).1]) :=
  ⟨by decide,
    (claim8_pop_min gridA (0, 0) [(1, 0)] [] (1, 1) (gridA.nodes 1 1) false).2.2.2
      (by decide)⟩
